import Mathlib

/-!
# Verification of the Reinicke scraper (reinicke_v2_airtable_replace.py)

Shallow embedding of the data model and the pure algorithmic core of the
scraper: record field maps, the identity-key function `unique_key`, the
field-level diff and reconciliation loop of `run`, duplicate merging of the
desired map, price parsing/formatting, link dedup/filtering, description
cleaning, configuration gating and batch chunking.

Python `dict`s of record fields are embedded as association lists
`List (String × Val)` (insertion-ordered, keys assumed distinct where
a statement needs it, exactly as a `dict` guarantees).  Field values occurring
in the records relevant to the claims are strings or `None`; they are
embedded as `Val`.  Machine floats are embedded as exact rationals: every
concrete number appearing in the claims is exactly representable.
-/

set_option autoImplicit false

namespace Reinicke

/-- A Python field value as stored in the scraper's records: `None` or a
string.  (The claims under verification only ever inspect string-valued or
absent fields; `vnull` embeds Python `None`, which `dict.get` also returns
for an absent key.) -/
inductive Val where
  | vnull : Val
  | vstr : String → Val
deriving DecidableEq, Repr

/-- A record: a Python `dict` of fields, embedded as an insertion-ordered
association list. -/
abbrev Rec := List (String × Val)

/-- Lookup `m.get(k)` distinguishing absence: `none` for a missing key. -/
def lookupA {β : Type} (m : List (String × β)) (k : String) : Option β :=
  (m.find? (fun kv => kv.1 == k)).map (·.2)

/-- Python `m.get(k)` as used in the diff: an absent key yields `None`,
which is the same value the comparison sees for a stored `None`. -/
def pyGet (m : Rec) (k : String) : Val :=
  (lookupA m k).getD .vnull

/-- Python `str.strip()`: remove leading and trailing whitespace. -/
def pyStrip (s : String) : String :=
  String.mk (((s.data.dropWhile Char.isWhitespace).reverse.dropWhile Char.isWhitespace).reverse)

/-- Evaluation of `(fields.get(k) or "")` for the string-valued identity fields:
`None`, an absent key and the empty string all collapse to `""`. -/
def strOr : Option Val → String
  | some (.vstr s) => s
  | _ => ""

/-! ## Configuration gating (`airtable_table_segment`, gate in `run`) -/

/-- Function `airtable_table_segment()`: `""` unless both the base and the table id
are set, else `"{base}/{table_id}"`. -/
def airtable_table_segment (base tableId : String) : String :=
  if base = "" ∨ tableId = "" then "" else base ++ "/" ++ tableId

/-- Which of the two final phases `run` takes after writing the CSV. -/
inductive SyncPhase where
  | synced : SyncPhase
  | skipped : SyncPhase
deriving DecidableEq, Repr

/-- The gate in `run`:
`if AIRTABLE_TOKEN and AIRTABLE_BASE and airtable_table_segment(): ... else: print("übersprungen")`.
Python truthiness of a string is non-emptiness.  The skip branch is an
ordinary branch (a log line), not an exception. -/
def run_sync_decision (token base tableId : String) : SyncPhase :=
  if token ≠ "" ∧ base ≠ "" ∧ airtable_table_segment base tableId ≠ "" then .synced
  else .skipped

/-! ## Batch chunking (`airtable_batch_create` / `_update` / `_delete`)

Each function loops `for i in range(0, len(xs), 10): batch = xs[i:i+10]`,
issues one API call per batch in order and `raise_for_status()`es, i.e.
aborts on the first failing chunk (chunks already sent stay applied).
The HTTP outcome of a chunk is embedded as a Boolean oracle `ok`. -/

/-- Chunks `xs[0:10], xs[10:20], ...` — the chunking performed by
`range(0, len(xs), 10)`. -/
def chunks10 {α : Type} : List α → List (List α)
  | [] => []
  | x :: xs => (x :: xs).take 10 :: chunks10 ((x :: xs).drop 10)
termination_by l => l.length
decreasing_by
  simp only [List.length_drop, List.length_cons]
  omega

/-- Issue the chunks in order; stop at the first chunk whose API call
fails (`raise_for_status`).  Returns the chunks actually applied and the
failing chunk, if any. -/
def runBatches {α : Type} (ok : List α → Bool) : List (List α) → List (List α) × Option (List α)
  | [] => ([], none)
  | c :: rest =>
    if ok c then (c :: (runBatches ok rest).1, (runBatches ok rest).2)
    else ([], some c)

/-- Function `airtable_batch_create(records)`. -/
def airtable_batch_create (ok : List Rec → Bool) (records : List Rec) :
    List (List Rec) × Option (List Rec) :=
  runBatches ok (chunks10 records)

/-- Function `airtable_batch_update(updates)` (updates are `{"id": ..., "fields": diff}` pairs). -/
def airtable_batch_update (ok : List (String × Rec) → Bool) (updates : List (String × Rec)) :
    List (List (String × Rec)) × Option (List (String × Rec)) :=
  runBatches ok (chunks10 updates)

/-- Function `airtable_batch_delete(record_ids)`. -/
def airtable_batch_delete (ok : List String → Bool) (ids : List String) :
    List (List String) × Option (List String) :=
  runBatches ok (chunks10 ids)

/-! ## Link collection (`collect_detail_links`)

The five discovery methods each push candidate URLs (after their own
normalisation and guards) through the shared `seen`-set/`links`-list
accumulator; finally links containing `"reserviert"` (on the lowercased
link) are dropped.  The concatenated candidate stream of the five passes
is the input of the model. -/

/-- Test `needle in haystack` for strings (substring containment). -/
def containsSub (haystack needle : String) : Bool :=
  haystack.data.tails.any (fun t => needle.data.isPrefixOf t)

/-- The `seen`-set/`links`-list accumulation: keep the first occurrence of
every candidate, preserving discovery order. -/
def dedupFirstSeenAux (seen : List String) : List String → List String
  | [] => []
  | u :: rest =>
    if u ∈ seen then dedupFirstSeenAux seen rest
    else u :: dedupFirstSeenAux (u :: seen) rest

/-- First-seen-wins dedup across all discovery passes. -/
def dedupFirstSeen (cands : List String) : List String :=
  dedupFirstSeenAux [] cands

/-- Test `"reserviert" in link.lower()`. -/
def isReserved (link : String) : Bool :=
  containsSub link.toLower "reserviert"

/-- Function `collect_detail_links`, as a function of the concatenated candidate
URL stream of the five discovery passes: dedup first-seen, then filter the
reserved links out. -/
def collect_detail_links (cands : List String) : List String :=
  (dedupFirstSeen cands).filter (fun l => !(isReserved l))

/-! ## Field-level diff and the reconciliation loop of `run`

```
to_create, to_update, keep = [], [], set()
for k, fields in desired.items():
    if k in existing:
        rec_id, old = existing[k]
        diff = {fld: val for fld, val in fields.items() if old.get(fld) != val}
        if diff:
            to_update.append({"id": rec_id, "fields": diff})
        keep.add(k)
    else:
        to_create.append(fields)
to_delete_ids = [rec_id for k, (rec_id, _) in existing.items() if k not in keep]
```
-/

/-- The inline dict comprehension computing the field-level diff:
keep exactly those of the *desired* record's fields whose value differs
from what `old.get` returns for them. -/
def diff_fields (old new : Rec) : Rec :=
  new.filter (fun kv => !(pyGet old kv.1 == kv.2))

/-- The three accumulators of the reconciliation loop. -/
structure SyncPlan where
  to_create : List Rec
  to_update : List (String × Rec)
  keep : List String
deriving DecidableEq, Repr

/-- The `for k, fields in desired.items()` loop, processed front to back
(structural recursion prepending each iteration's contribution, which
yields exactly the loop's append order). `existing` maps an identity key
to `(rec_id, fields)`. -/
def reconcile (existing : List (String × String × Rec)) : List (String × Rec) → SyncPlan
  | [] => ⟨[], [], []⟩
  | (k, fields) :: rest =>
    let r := reconcile existing rest
    match lookupA existing k with
    | some (rid, old) =>
      let d := diff_fields old fields
      { to_create := r.to_create
        to_update := if d = [] then r.to_update else (rid, d) :: r.to_update
        keep := k :: r.keep }
    | none =>
      { to_create := fields :: r.to_create
        to_update := r.to_update
        keep := r.keep }

/-- Comprehension `to_delete_ids = [rec_id for k, (rec_id, _) in existing.items() if k not in keep]`. -/
def to_delete_ids (existing : List (String × String × Rec)) (keep : List String) : List String :=
  (existing.filter (fun e => !(decide (e.1 ∈ keep)))).map (fun e => e.2.1)

/-- Identity keys of the desired entries that end up in `to_create`
(those absent from `existing`). -/
def createdKeys (existing : List (String × String × Rec)) (desired : List (String × Rec)) :
    List String :=
  (desired.filter (fun kv => (lookupA existing kv.1).isNone)).map (·.1)

/-- Identity keys of the desired entries that yield an update entry
(present in `existing` with a non-empty field diff). -/
def updatedKeys (existing : List (String × String × Rec)) (desired : List (String × Rec)) :
    List String :=
  (desired.filter (fun kv =>
    match lookupA existing kv.1 with
    | some p => !(diff_fields p.2 kv.2 == [])
    | none => false)).map (·.1)

/-- Identity keys of the existing entries that end up in `to_delete_ids`. -/
def deletedKeys (existing : List (String × String × Rec)) (keep : List String) : List String :=
  (existing.filter (fun e => !(keep.contains e.1))).map (·.1)

/-! ## Sanitisation and the duplicate-merging construction of `desired`

```
desired = {}
for r in all_rows:
    k = unique_key(r)
    if k in desired:
        if len(r.get("Beschreibung", "")) > len(desired[k].get("Beschreibung", "")):
            desired[k] = sanitize_record_for_airtable(r, allowed)
    else:
        desired[k] = sanitize_record_for_airtable(r, allowed)
```
-/

/-- Function `sanitize_record_for_airtable(record, allowed_fields)`: identity when
the allow-list is empty, otherwise keep only allowed field names.  (The
`or not allowed_fields` disjunct in the source's comprehension is dead:
that branch is only reached when `allowed_fields` is non-empty.) -/
def sanitize_record_for_airtable (record : Rec) (allowed : List String) : Rec :=
  if allowed = [] then record else record.filter (fun kv => decide (kv.1 ∈ allowed))

/-- Value `len(r.get("Beschreibung", ""))` — the description length used by the
duplicate tie-break.  (A present non-string value would raise in Python;
scraped rows always carry a string description, and the theorems about
this function restrict to that case.) -/
def descLen (r : Rec) : Nat :=
  match lookupA r "Beschreibung" with
  | some (.vstr s) => s.length
  | _ => 0

/-- Python `desired[k] = v` on a key already present: overwrite in place,
preserving the key's position. -/
def updateAssoc (m : List (String × Rec)) (k : String) (v : Rec) : List (String × Rec) :=
  m.map (fun kv => if kv.1 = k then (k, v) else kv)

/-! ## Identity key (`unique_key`)

```
obj = (fields.get("Objektnummer") or "").strip()
if obj: return f"obj:{obj}"
url = (fields.get("Webseite") or "").strip()
if url: return f"url:{url}"
return f"hash:{hash(json.dumps(fields, sort_keys=True))}"
```

`json.dumps(fields, sort_keys=True)` serialises the field dict with keys
sorted, default separators `", "`/`": "` and `ensure_ascii` escaping; it
is embedded character by character below.  CPython's builtin `hash` is an
opaque 64-bit siphash keyed per process; it is not part of the source, so
it is embedded as a deterministic injective integer encoding of the
serialised string (the source's own guarantee within one process run is
determinism; the embedding abstracts from the astronomically unlikely
64-bit truncation collisions). -/

/-- A hexadecimal digit character. -/
def hexDigitChar (d : Nat) : Char :=
  if d = 0 then '0' else if d = 1 then '1' else if d = 2 then '2'
  else if d = 3 then '3' else if d = 4 then '4' else if d = 5 then '5'
  else if d = 6 then '6' else if d = 7 then '7' else if d = 8 then '8'
  else if d = 9 then '9' else if d = 10 then 'a' else if d = 11 then 'b'
  else if d = 12 then 'c' else if d = 13 then 'd' else if d = 14 then 'e'
  else 'f'

/-- Value of a hexadecimal digit character. -/
def hexVal (c : Char) : Nat :=
  if c = '0' then 0 else if c = '1' then 1 else if c = '2' then 2
  else if c = '3' then 3 else if c = '4' then 4 else if c = '5' then 5
  else if c = '6' then 6 else if c = '7' then 7 else if c = '8' then 8
  else if c = '9' then 9 else if c = 'a' then 10 else if c = 'b' then 11
  else if c = 'c' then 12 else if c = 'd' then 13 else if c = 'e' then 14
  else 15

/-- Six fixed-width hex digits for a code point (`\uXXXX` escaping;
code points above `0xFFFF` are emitted by CPython as a surrogate pair and
are embedded here as one fixed-width escape of the code point, which is
likewise injective). -/
def hex6 (n : Nat) : List Char :=
  [hexDigitChar (n / 1048576 % 16), hexDigitChar (n / 65536 % 16),
   hexDigitChar (n / 4096 % 16), hexDigitChar (n / 256 % 16),
   hexDigitChar (n / 16 % 16), hexDigitChar (n % 16)]

/-- JSON (`ensure_ascii`) escaping of one character. -/
def escChar (c : Char) : List Char :=
  if c = '"' then ['\\', '"']
  else if c = '\\' then ['\\', '\\']
  else if c = '\n' then ['\\', 'n']
  else if c = '\t' then ['\\', 't']
  else if c = '\r' then ['\\', 'r']
  else if c.toNat = 8 then ['\\', 'b']
  else if c.toNat = 12 then ['\\', 'f']
  else if c.toNat < 32 ∨ 126 < c.toNat then '\\' :: 'u' :: hex6 c.toNat
  else [c]

/-- JSON escaping of a character sequence. -/
def escList : List Char → List Char
  | [] => []
  | c :: cs => escChar c ++ escList cs

/-- A serialised JSON string literal. -/
def serStr (s : String) : List Char :=
  '"' :: escList s.data ++ ['"']

/-- A serialised JSON value: `None ↦ null`, a string to its literal. -/
def serVal : Val → List Char
  | .vnull => ['n', 'u', 'l', 'l']
  | .vstr s => serStr s

/-- One serialised `"key": value` item. -/
def serPair (kv : String × Val) : List Char :=
  serStr kv.1 ++ ':' :: ' ' :: serVal kv.2

/-- Separator `", "` followed by each further item. -/
def serTail : List (String × Val) → List Char
  | [] => []
  | kv :: rest => ',' :: ' ' :: serPair kv ++ serTail rest

/-- The item list with the default `", "` separator. -/
def serItems : List (String × Val) → List Char
  | [] => []
  | kv :: rest => serPair kv ++ serTail rest

/-- Serialisation `json.dumps` of an (already key-sorted) field list. -/
def dumpsChars (l : List (String × Val)) : List Char :=
  '{' :: serItems l ++ ['}']

/-- Serialisation `json.dumps(fields, sort_keys=True)`. -/
def json_dumps_sorted (fields : Rec) : String :=
  String.mk (dumpsChars (fields.insertionSort (fun a b => a.1 ≤ b.1)))

/-- Decode one character (plain or escaped) off the front of a serialised
string body, returning its code point and the remainder.  Inverse of
`escChar`; used to prove the serialisation injective. -/
def decodeOne : List Char → Option (Nat × List Char)
  | [] => none
  | c :: rest =>
    if c = '\\' then
      match rest with
      | [] => none
      | e :: rest2 =>
        if e = '"' then some (34, rest2)
        else if e = '\\' then some (92, rest2)
        else if e = 'n' then some (10, rest2)
        else if e = 't' then some (9, rest2)
        else if e = 'r' then some (13, rest2)
        else if e = 'b' then some (8, rest2)
        else if e = 'f' then some (12, rest2)
        else if e = 'u' then
          match rest2 with
          | a :: b :: c3 :: d :: e2 :: f :: r =>
            some (hexVal a * 1048576 + hexVal b * 65536 + hexVal c3 * 4096 +
                  hexVal d * 256 + hexVal e2 * 16 + hexVal f, r)
          | _ => none
        else none
    else some (c.toNat, rest)

/-- Injective integer encoding of a character sequence (base the number of
code points); stands in for CPython's opaque per-process string hash. -/
def strEncode : List Char → Nat
  | [] => 0
  | c :: cs => c.toNat + 1 + 1114112 * strEncode cs

/-- The embedded `hash(s)` of CPython (see the section comment). -/
def pyHash (s : String) : Int :=
  Int.ofNat (strEncode s.data)

/-- Function `unique_key(fields)`. -/
def unique_key (fields : Rec) : String :=
  let obj := pyStrip (strOr (lookupA fields "Objektnummer"))
  if obj ≠ "" then "obj:" ++ obj
  else
    let url := pyStrip (strOr (lookupA fields "Webseite"))
    if url ≠ "" then "url:" ++ url
    else "hash:" ++ toString (pyHash (json_dumps_sorted fields))

/-- Value `(fields.get("Objektnummer") or "").strip()` — the object number the
identity key prefers. -/
def objPart (fields : Rec) : String :=
  pyStrip (strOr (lookupA fields "Objektnummer"))

/-- Value `(fields.get("Webseite") or "").strip()` — the URL fallback. -/
def urlPart (fields : Rec) : String :=
  pyStrip (strOr (lookupA fields "Webseite"))

/-- The `desired = {}` construction loop over the scraped rows (front to
back, on the accumulating insertion-ordered dict). -/
def buildDesiredAux (allowed : List String) (desired : List (String × Rec)) :
    List Rec → List (String × Rec)
  | [] => desired
  | r :: rest =>
    let k := unique_key r
    match lookupA desired k with
    | some cur =>
      if descLen cur < descLen r then
        buildDesiredAux allowed (updateAssoc desired k (sanitize_record_for_airtable r allowed)) rest
      else
        buildDesiredAux allowed desired rest
    | none =>
      buildDesiredAux allowed (desired ++ [(k, sanitize_record_for_airtable r allowed)]) rest

/-- The `desired` map of `run`, built from the scraped rows. -/
def buildDesired (allowed : List String) (rows : List Rec) : List (String × Rec) :=
  buildDesiredAux allowed [] rows

/-! ## Price parsing (`parse_price_to_number`) and extraction (`extract_price`)

Machine floats are embedded as exact rationals; every number reachable
from the claims is exactly representable and `float()`'s rounding plays no
role at the relevant magnitudes. -/

/-- Digit value of a decimal digit character. -/
def digitVal (c : Char) : Nat := c.toNat - 48

/-- Value of a most-significant-first decimal digit list. -/
def valDigits (l : List Char) : Nat :=
  l.foldl (fun a c => a * 10 + digitVal c) 0

/-- Conversion `float(s)` for a candidate numeral: succeeds exactly on strings of
digits and at most one `'.'` containing at least one digit (the only
`float`-grammar forms producible by `parse_price_to_number`'s cleaning;
the model uses this grammar for all inputs). -/
def parseDigitDot (cs : List Char) : Option ℚ :=
  if cs.all (fun c => c.isDigit || c == '.') && cs.any (·.isDigit) && cs.count '.' ≤ 1 then
    let ip := cs.takeWhile (fun c => !(c == '.'))
    let fp := (cs.dropWhile (fun c => !(c == '.'))).drop 1
    some ((valDigits ip : ℚ) + (valDigits fp : ℚ) / (10 : ℚ) ^ fp.length)
  else none

/-- The cleaning of `parse_price_to_number`:
`re.sub(r"[^0-9.,]", "", s)`, then `.replace(".", "").replace(",", ".")`. -/
def cleanPriceChars (s : String) : List Char :=
  ((s.data.filter (fun c => c.isDigit || c == '.' || c == ',')).filter
      (fun c => !(c == '.'))).map (fun c => if c = ',' then '.' else c)

/-- Function `parse_price_to_number(preis_str)`: `None` for the empty string, else
clean and `float()`, failing soft to `None`. -/
def parse_price_to_number (s : String) : Option ℚ :=
  if s = "" then none
  else parseDigitDot (cleanPriceChars s)

/-- Python `int()` truncation toward zero of an (exact) float. -/
def pyInt (q : ℚ) : Int :=
  if q < 0 then -(Int.floor (-q)) else Int.floor q

/-- Most-significant-first decimal digits of a natural number. -/
def natDigitsAux : Nat → List Char → List Char
  | 0, acc => acc
  | n + 1, acc =>
    natDigitsAux ((n + 1) / 10) (hexDigitChar ((n + 1) % 10) :: acc)
decreasing_by
  exact Nat.div_lt_self (Nat.succ_pos n) (by omega)

/-- Decimal digit characters of a natural number (`"0"` for zero). -/
def natDigits (n : Nat) : List Char :=
  if n = 0 then ['0'] else natDigitsAux n []

/-- Insert a `'.'` after every three characters of a reversed digit list
(the `f"{n:,}".replace(",", ".")` grouping, seen from the right). -/
def groupRevAux (r : List Char) : List Char :=
  if r.length ≤ 3 then r else r.take 3 ++ '.' :: groupRevAux (r.drop 3)
termination_by r.length
decreasing_by
  simp only [List.length_drop]
  omega

/-- Formatting `f"{n:,}".replace(",", ".")` for a non-negative integer: decimal
digits with `'.'` as thousands separator. -/
def fmtThousands (n : Nat) : String :=
  String.mk ((groupRevAux (natDigits n).reverse).reverse)

/-- Cleaning `g.replace(".", "").replace(",", ".")` applied to a matched
`([\d.,]+)` capture group. -/
def candClean (g : String) : List Char :=
  (g.data.filter (fun c => !(c == '.'))).map (fun c => if c = ',' then '.' else c)

/-- The candidate-processing step inside `extract_price`'s pattern loop:
`preis_str = g.replace(".", "").replace(",", ".")`, `float` it, and
accept (formatting `f"€{int(v):,}".replace(",", ".")`) only above the
plausibility threshold 100. -/
def price_candidate (g : String) : Option String :=
  match parseDigitDot (candClean g) with
  | some v => if 100 < v then some ("€" ++ fmtThousands (pyInt v).toNat) else none
  | none => none

/-- Function `extract_price`, as a function of the `([\d.,]+)` capture groups the
ordered regex patterns matched on the page text: the first accepted
candidate's formatted price, else `""`. -/
def extract_price (cands : List String) : String :=
  match cands with
  | [] => ""
  | g :: rest =>
    match price_candidate g with
    | some s => s
    | none => extract_price rest

/-! ## Description cleaning (`_norm`, `_clean_desc_lines`, `extract_description`) -/

/-- The stop-string list filtered out of description lines. -/
def STOP_STRINGS : List String :=
  ["Cookie", "Datenschutz", "Impressum", "Kontakt",
   "Tel:", "Fax:", "E-Mail:", "www.", "http",
   "© ", "JavaScript", "Alle Rechte", "Footer",
   "Geldwäscheprävention", "Weitergabeverbot", "Maklervertrag"]

/-- Collapse every maximal whitespace run to a single `' '`
(`re.sub(r"\s+", " ", s)`); the flag records whether the previous kept
character position was inside a whitespace run. -/
def collapseWsAux : Bool → List Char → List Char
  | _, [] => []
  | prevWs, c :: rest =>
    if c.isWhitespace then
      if prevWs then collapseWsAux true rest
      else ' ' :: collapseWsAux true rest
    else c :: collapseWsAux false rest

/-- Function `_norm(s)`: `re.sub(r"\s+", " ", s).strip()`.  After collapsing, the
only whitespace left is `' '`, so the strip drops spaces at both ends. -/
def normStr (s : String) : String :=
  String.mk (((collapseWsAux false s.data).dropWhile (· = ' ')).reverse.dropWhile (· = ' ')
    |>.reverse)

/-- Does the normalised line survive the length and stop-string filters? -/
def lineQualifies (line : String) : Bool :=
  !(line == "") && !(decide (line.length < 10)) &&
    !(STOP_STRINGS.any (fun stop => containsSub line stop))

/-- The `_clean_desc_lines` loop with its `seen` set of lowercased kept
lines. -/
def cleanDescAux (seen : List String) : List String → List String
  | [] => []
  | l :: rest =>
    let line := normStr l
    if lineQualifies line then
      if line.toLower ∈ seen then cleanDescAux seen rest
      else line :: cleanDescAux (line.toLower :: seen) rest
    else cleanDescAux seen rest

/-- Function `_clean_desc_lines(lines)`. -/
def clean_desc_lines (lines : List String) : List String :=
  cleanDescAux [] lines

/-- Join `"\n\n".join(xs)` (and the other separator joins). -/
def joinSep (sep : String) : List String → String
  | [] => ""
  | [x] => x
  | x :: y :: ys => x ++ sep ++ joinSep sep (y :: ys)

/-- Function `extract_description(soup, structured_data, page_text)`, as a function
of the structured key/value pairs and of the raw description lines the
selector passes collected: build the OBJEKTDATEN section from non-empty
structured values, clean the lines, and keep at most the first 20 cleaned
lines in the BESCHREIBUNG section. -/
def extract_description (structured : List (String × String)) (desc_lines : List String) :
    String :=
  let obj_lines := (structured.filter (fun kv => !(kv.2 == ""))).map
    (fun kv => kv.1 ++ ": " ++ kv.2)
  let sections₁ :=
    if obj_lines = [] then []
    else ["=== OBJEKTDATEN ===\n\n" ++ joinSep "\n\n" obj_lines]
  let cleaned := clean_desc_lines desc_lines
  let sections₂ :=
    if cleaned = [] then []
    else ["=== BESCHREIBUNG ===\n\n" ++ joinSep "\n\n" (cleaned.take 20)]
  joinSep "\n\n" (sections₁ ++ sections₂)

/-! ## Claim statements (the properties the theorems below establish) -/

/-- The chunking contract of one batched store operation on input `l`
with per-chunk HTTP outcome `ok`: consecutive chunks of at most 10
that jointly list every record exactly once in order; all chunks applied
in order when every call succeeds; otherwise the applied chunks are the
ones before the first failing chunk, which the raised error identifies. -/
def ChunkedOpOK {α : Type} (l : List α) (ok : List α → Bool)
    (res : List (List α) × Option (List α)) : Prop :=
  (chunks10 l).flatten = l ∧
  (∀ c ∈ chunks10 l, c.length ≤ 10 ∧ c ≠ []) ∧
  ((∀ c ∈ chunks10 l, ok c = true) → res = (chunks10 l, none)) ∧
  (∀ applied fc, res = (applied, some fc) →
    ok fc = false ∧ ∃ suffix, chunks10 l = applied ++ fc :: suffix ∧ ∀ c ∈ applied, ok c = true)

/-- What C6 asserts of the link collector on a candidate stream: the
output is a subsequence of the discovery stream (insertion order
preserved), contains a URL exactly once iff it was discovered at all
(in however many passes) and is not excluded, and contains no URL with
the exclusion keyword. -/
def CollectClaim (cands : List String) : Prop :=
  List.Sublist (collect_detail_links cands) cands ∧
  (∀ u, (collect_detail_links cands).count u =
    if u ∈ cands ∧ isReserved u = false then 1 else 0) ∧
  (∀ u ∈ collect_detail_links cands, isReserved u = false)

/-- What C1 asserts of the reconciliation on key-distinct maps:
`to_create` / `keep` are exactly the desired entries absent from /
present in `existing`; the created, updated and delete-source identity
keys are pairwise disjoint; every desired key is in exactly one of
{kept, created}; every existing key is in exactly one of
{kept, deleted}; and the two cardinality equations hold. -/
def ReconClaim (ex : List (String × String × Rec)) (d : List (String × Rec)) : Prop :=
  (reconcile ex d).to_create = (d.filter (fun kv => (lookupA ex kv.1).isNone)).map (·.2) ∧
  (reconcile ex d).keep = (d.filter (fun kv => (lookupA ex kv.1).isSome)).map (·.1) ∧
  (∀ k, ¬(k ∈ createdKeys ex d ∧ k ∈ updatedKeys ex d)) ∧
  (∀ k, ¬(k ∈ createdKeys ex d ∧ k ∈ deletedKeys ex (reconcile ex d).keep)) ∧
  (∀ k, ¬(k ∈ updatedKeys ex d ∧ k ∈ deletedKeys ex (reconcile ex d).keep)) ∧
  (∀ k ∈ d.map (·.1),
    (k ∈ (reconcile ex d).keep ∧ k ∉ createdKeys ex d) ∨
    (k ∉ (reconcile ex d).keep ∧ k ∈ createdKeys ex d)) ∧
  (∀ k ∈ ex.map (·.1),
    (k ∈ (reconcile ex d).keep ∧ k ∉ deletedKeys ex (reconcile ex d).keep) ∨
    (k ∉ (reconcile ex d).keep ∧ k ∈ deletedKeys ex (reconcile ex d).keep)) ∧
  (reconcile ex d).to_create.length + (reconcile ex d).keep.length = d.length ∧
  (to_delete_ids ex (reconcile ex d).keep).length + (reconcile ex d).keep.length = ex.length

/-- What C5 asserts of price parsing and extraction: the two locale
conversions; totality with `None` (and only non-negative values) —
"fails soft, never throws"; rejection of candidates at or below the
plausibility threshold 100; and the empty string when every candidate is
rejected, e.g. for the lone candidate `"50"`. -/
def PriceClaim : Prop :=
  parse_price_to_number "1.250.000 €" = some (1250000 : ℚ) ∧
  parse_price_to_number "850,50 €" = some (850.5 : ℚ) ∧
  (∀ s : String, parse_price_to_number s = none ∨
    ∃ q : ℚ, parse_price_to_number s = some q ∧ 0 ≤ q) ∧
  (∀ (g : String) (q : ℚ), parseDigitDot (candClean g) = some q → q ≤ 100 →
    price_candidate g = none) ∧
  (∀ cands : List String, (∀ g ∈ cands, price_candidate g = none) →
    extract_price cands = "") ∧
  extract_price ["50"] = ""

/-- What the amended C8 asserts of the cleaned line list: lowercased
lines are pairwise distinct; every kept line has length `≥ 10` and
contains no stop string; every kept line is the normalisation of the
*first* input line of its case-insensitive class that survives the
filters; and the assembled description depends only on the first 20
cleaned lines (truncation is by line count). -/
def CleanDescClaim (lines : List String) : Prop :=
  ((clean_desc_lines lines).map String.toLower).Nodup ∧
  (∀ l ∈ clean_desc_lines lines, 10 ≤ l.length) ∧
  (∀ l ∈ clean_desc_lines lines, ∀ stop ∈ STOP_STRINGS, containsSub l stop = false) ∧
  (∀ l ∈ clean_desc_lines lines, ∃ pre raw post, lines = pre ++ raw :: post ∧
    normStr raw = l ∧
    ∀ p ∈ pre, ¬(lineQualifies (normStr p) = true ∧ (normStr p).toLower = l.toLower))


/-! # Theorems -/

/-! ## Configuration gating (C7) -/

theorem append_slash_ne_empty (b i : String) : b ++ "/" ++ i ≠ "" := by
  intro h
  have hl : (b ++ "/" ++ i).length = (0 : Nat) := by rw [h]; rfl
  simp only [String.length_append] at hl
  have : ("/" : String).length = 1 := rfl
  omega

/-- C7.  The store-sync phase of `run` is taken iff the token, the base id
and the table id are all set (non-empty); with any of them absent the
decision is the ordinary `skipped` branch (a log line, not an error). -/
theorem C7_config_fallback (token base tableId : String) :
    (run_sync_decision token base tableId = .synced ↔
      (token ≠ "" ∧ base ≠ "" ∧ tableId ≠ "")) ∧
    (run_sync_decision token base tableId = .skipped ↔
      ¬(token ≠ "" ∧ base ≠ "" ∧ tableId ≠ "")) := by
  have hseg : airtable_table_segment base tableId ≠ "" ↔ (base ≠ "" ∧ tableId ≠ "") := by
    unfold airtable_table_segment
    by_cases h : base = "" ∨ tableId = ""
    · rw [if_pos h]
      constructor
      · intro hc; exact absurd rfl hc
      · rintro ⟨hb, hi⟩
        rcases h with h | h
        · exact absurd h hb
        · exact absurd h hi
    · rw [if_neg h]
      push_neg at h
      exact ⟨fun _ => h, fun _ => append_slash_ne_empty base tableId⟩
  have hiff : (token ≠ "" ∧ base ≠ "" ∧ airtable_table_segment base tableId ≠ "") ↔
      (token ≠ "" ∧ base ≠ "" ∧ tableId ≠ "") := by
    constructor
    · rintro ⟨h1, h2, h3⟩; exact ⟨h1, h2, (hseg.mp h3).2⟩
    · rintro ⟨h1, h2, h3⟩; exact ⟨h1, h2, hseg.mpr ⟨h2, h3⟩⟩
  unfold run_sync_decision
  by_cases hC : token ≠ "" ∧ base ≠ "" ∧ airtable_table_segment base tableId ≠ ""
  · rw [if_pos hC]
    refine ⟨⟨fun _ => hiff.mp hC, fun _ => rfl⟩, ⟨fun h => ?_, fun h => absurd (hiff.mp hC) h⟩⟩
    exact SyncPhase.noConfusion h
  · rw [if_neg hC]
    refine ⟨⟨fun h => ?_, fun hp => absurd (hiff.mpr hp) hC⟩,
      ⟨fun _ hp => hC (hiff.mpr hp), fun _ => rfl⟩⟩
    exact SyncPhase.noConfusion h

/-- C7 witness at concrete configuration strings. -/
theorem C7_config_fallback_witness :
    (run_sync_decision "tok" "app1" "tblX" = .synced ↔
      (("tok" : String) ≠ "" ∧ ("app1" : String) ≠ "" ∧ ("tblX" : String) ≠ "")) ∧
    (run_sync_decision "tok" "app1" "tblX" = .skipped ↔
      ¬(("tok" : String) ≠ "" ∧ ("app1" : String) ≠ "" ∧ ("tblX" : String) ≠ "")) :=
  C7_config_fallback "tok" "app1" "tblX"

/-! ## Batch chunking (C9) -/

theorem chunks10_join_aux {α : Type} :
    ∀ (n : Nat) (l : List α), l.length ≤ n → (chunks10 l).flatten = l
  | _, [], _ => by simp [chunks10]
  | 0, _ :: _, h => by simp at h
  | n + 1, x :: xs, h => by
    rw [chunks10]
    simp only [List.flatten_cons]
    rw [chunks10_join_aux n ((x :: xs).drop 10)
      (by simp only [List.length_drop, List.length_cons]; simp at h; omega)]
    exact List.take_append_drop 10 (x :: xs)

theorem chunks10_join {α : Type} (l : List α) : (chunks10 l).flatten = l :=
  chunks10_join_aux l.length l (Nat.le_refl _)

theorem chunks10_mem_le_aux {α : Type} :
    ∀ (n : Nat) (l : List α), l.length ≤ n → ∀ c ∈ chunks10 l, c.length ≤ 10 ∧ c ≠ []
  | _, [], _ => by intro c hc; simp [chunks10] at hc
  | 0, _ :: _, h => by simp at h
  | n + 1, x :: xs, h => by
    intro c hc
    rw [chunks10, List.mem_cons] at hc
    rcases hc with hc | hc
    · subst hc
      exact ⟨by simp, by simp⟩
    · exact chunks10_mem_le_aux n ((x :: xs).drop 10)
        (by simp only [List.length_drop, List.length_cons]; simp at h; omega) c hc

theorem chunks10_mem_le {α : Type} (l : List α) :
    ∀ c ∈ chunks10 l, c.length ≤ 10 ∧ c ≠ [] :=
  chunks10_mem_le_aux l.length l (Nat.le_refl _)

theorem runBatches_all_ok {α : Type} (ok : List α → Bool) (chs : List (List α))
    (h : ∀ c ∈ chs, ok c = true) : runBatches ok chs = (chs, none) := by
  induction chs with
  | nil => rfl
  | cons c rest ih =>
    rw [runBatches, if_pos (h c (by simp)), ih (fun d hd => h d (by simp [hd]))]

theorem runBatches_err {α : Type} (ok : List α → Bool) :
    ∀ (chs applied : List (List α)) (fc : List α),
    runBatches ok chs = (applied, some fc) →
    ok fc = false ∧ ∃ suffix, chs = applied ++ fc :: suffix ∧ ∀ c ∈ applied, ok c = true := by
  intro chs
  induction chs with
  | nil => intro applied fc h; simp [runBatches] at h
  | cons c rest ih =>
    intro applied fc h
    rw [runBatches] at h
    by_cases hc : ok c
    · rw [if_pos hc] at h
      injection h with h1 h2
      have hr : runBatches ok rest = ((runBatches ok rest).1, some fc) := by
        rw [← h2]
      obtain ⟨hfc, suffix, hsplit, hall⟩ := ih (runBatches ok rest).1 fc hr
      subst h1
      refine ⟨hfc, suffix, by rw [List.cons_append, ← hsplit], ?_⟩
      intro d hd
      rw [List.mem_cons] at hd
      rcases hd with hd | hd
      · subst hd; exact hc
      · exact hall d hd
    · rw [if_neg hc] at h
      injection h with h1 h2
      subst h1
      injection h2 with h3
      subst h3
      exact ⟨by simpa using hc, rest, by simp, by simp⟩

theorem chunkedOp_contract {α : Type} (l : List α) (ok : List α → Bool) :
    ChunkedOpOK l ok (runBatches ok (chunks10 l)) := by
  refine ⟨chunks10_join l, chunks10_mem_le l, ?_, ?_⟩
  · intro h; exact runBatches_all_ok ok (chunks10 l) h
  · intro applied fc h; exact runBatches_err ok (chunks10 l) applied fc h

/-- C9.  `airtable_batch_create`, `airtable_batch_update` and
`airtable_batch_delete` each partition their input into consecutive
chunks of at most 10 records, issue one API call per chunk in order (so
every record appears in exactly one chunk), and either apply every chunk
or abort at — and report — the first failing chunk. -/
theorem C9_batch_chunking (okc : List Rec → Bool) (records : List Rec)
    (oku : List (String × Rec) → Bool) (updates : List (String × Rec))
    (okd : List String → Bool) (ids : List String) :
    ChunkedOpOK records okc (airtable_batch_create okc records) ∧
    ChunkedOpOK updates oku (airtable_batch_update oku updates) ∧
    ChunkedOpOK ids okd (airtable_batch_delete okd ids) :=
  ⟨chunkedOp_contract records okc, chunkedOp_contract updates oku,
    chunkedOp_contract ids okd⟩

/-- C9 witness at concrete inputs (the delete list spans two chunks). -/
theorem C9_batch_chunking_witness :
    ChunkedOpOK [[("Titel", Val.vstr "A")]] (fun _ => true)
      (airtable_batch_create (fun _ => true) [[("Titel", Val.vstr "A")]]) ∧
    ChunkedOpOK [("r1", [("Titel", Val.vstr "B")])] (fun _ => true)
      (airtable_batch_update (fun _ => true) [("r1", [("Titel", Val.vstr "B")])]) ∧
    ChunkedOpOK ["a", "b", "c", "d", "e", "f", "g", "h", "i", "j", "k", "l"] (fun _ => true)
      (airtable_batch_delete (fun _ => true)
        ["a", "b", "c", "d", "e", "f", "g", "h", "i", "j", "k", "l"]) :=
  C9_batch_chunking (fun _ => true) [[("Titel", Val.vstr "A")]]
    (fun _ => true) [("r1", [("Titel", Val.vstr "B")])]
    (fun _ => true) ["a", "b", "c", "d", "e", "f", "g", "h", "i", "j", "k", "l"]

/-! ## Link collection (C6) -/

theorem dedupFirstSeenAux_sublist (l : List String) :
    ∀ seen, List.Sublist (dedupFirstSeenAux seen l) l := by
  induction l with
  | nil => intro seen; simp [dedupFirstSeenAux]
  | cons u rest ih =>
    intro seen
    rw [dedupFirstSeenAux]
    split
    · exact List.Sublist.cons u (ih seen)
    · exact List.Sublist.cons₂ u (ih (u :: seen))

theorem dedupFirstSeenAux_count (l : List String) :
    ∀ (seen : List String) (u : String),
      (dedupFirstSeenAux seen l).count u = if u ∈ l ∧ u ∉ seen then 1 else 0 := by
  induction l with
  | nil => intro seen u; simp [dedupFirstSeenAux]
  | cons x rest ih =>
    intro seen u
    rw [dedupFirstSeenAux]
    by_cases hx : x ∈ seen
    · rw [if_pos hx, ih]
      by_cases hu : u = x
      · subst hu; simp [hx]
      · simp [List.mem_cons, hu]
    · rw [if_neg hx, List.count_cons, ih]
      by_cases hu : u = x
      · subst hu; simp [hx]
      · simp [List.mem_cons, hu, Ne.symm hu]

theorem count_filter_bool {α : Type} [DecidableEq α] (p : α → Bool) (l : List α) (u : α) :
    (l.filter p).count u = if p u then l.count u else 0 := by
  induction l with
  | nil => simp
  | cons x rest ih =>
    by_cases hx : p x
    · rw [List.filter_cons_of_pos hx, List.count_cons, List.count_cons, ih]
      by_cases hu : u = x
      · subst hu; simp [hx]
      · simp [hu, Ne.symm hu]
    · rw [List.filter_cons_of_neg hx, List.count_cons, ih]
      by_cases hu : u = x
      · subst hu; simp [hx]
      · simp [hu, Ne.symm hu]

/-- C6.  Link collection output: each discovered URL appears at most once
(first-seen-wins across all passes, insertion order preserved) — a URL
found by several passes yields exactly one entry — and no URL containing
the exclusion keyword (case-insensitive substring) survives the filter. -/
theorem C6_link_collection (cands : List String) : CollectClaim cands := by
  refine ⟨?_, ?_, ?_⟩
  · exact (List.filter_sublist (dedupFirstSeen cands)).trans (dedupFirstSeenAux_sublist cands [])
  · intro u
    unfold collect_detail_links
    rw [count_filter_bool]
    unfold dedupFirstSeen
    rw [dedupFirstSeenAux_count]
    by_cases hr : isReserved u
    · simp [hr]
    · have hr' : isReserved u = false := by simpa using hr
      simp [hr']
  · intro u hu
    unfold collect_detail_links at hu
    have := List.of_mem_filter hu
    simpa using this

/-- C6 witness: a URL discovered by two passes yields one entry; the
reserved URL is dropped however often it was discovered. -/
theorem C6_link_collection_witness :
    CollectClaim ["https://a.example/public/exposee/42",
      "https://a.example/public/exposee/42",
      "https://a.example/public/exposee/Reserviert-7",
      "https://a.example/public/exposee/Reserviert-7"] :=
  C6_link_collection _

/-! ## Association-list lookup lemmas -/

theorem lookupA_eq_none {β : Type} (m : List (String × β)) (k : String) :
    lookupA m k = none ↔ k ∉ m.map (·.1) := by
  unfold lookupA
  rw [Option.map_eq_none', List.find?_eq_none]
  constructor
  · intro h hk
    obtain ⟨kv, hkv, hk1⟩ := List.mem_map.mp hk
    exact absurd (by simpa using hk1) (by simpa using h kv hkv)
  · intro h kv hkv
    intro hbeq
    exact h (List.mem_map.mpr ⟨kv, hkv, by simpa using hbeq⟩)

theorem lookupA_isSome {β : Type} (m : List (String × β)) (k : String) :
    (lookupA m k).isSome = true ↔ k ∈ m.map (·.1) := by
  rw [Option.isSome_iff_ne_none, Ne, lookupA_eq_none, not_not]

theorem lookupA_of_mem_nodup {β : Type} (m : List (String × β))
    (hm : (m.map (·.1)).Nodup) (kv : String × β) (h : kv ∈ m) :
    lookupA m kv.1 = some kv.2 := by
  induction m with
  | nil => simp at h
  | cons e rest ih =>
    rw [List.map_cons, List.nodup_cons] at hm
    rcases List.mem_cons.mp h with h | h
    · subst h
      unfold lookupA
      rw [List.find?_cons_of_pos _ (by simp)]
      rfl
    · have hne : e.1 ≠ kv.1 := by
        intro he
        exact hm.1 (he ▸ List.mem_map.mpr ⟨kv, h, rfl⟩)
      unfold lookupA
      rw [List.find?_cons_of_neg _ (by simpa using hne)]
      exact ih hm.2 h

/-! ## Field-level diff (C2) -/

/-- C2 counterexample.  The claimed "diff contains a key iff
`old[key] != new[key]`" fails for a key present only in the remote
record: the comprehension ranges over the desired record's fields, so a
remote-only field differs (`"A"` vs absent/`None`) yet is not in the
diff.  (Consequence in the code: remote-only field values are never
cleared by an update.) -/
theorem C2_diff_counterexample :
    ¬ (("Titel" ∈ (diff_fields [("Titel", Val.vstr "A")] []).map (·.1)) ↔
        pyGet [("Titel", Val.vstr "A")] "Titel" ≠ pyGet [] "Titel") := by
  decide

/-- C2 (amended).  For field maps with distinct keys: the diff contains a
key iff the *desired* record contains it with a value differing from the
remote one; `diff(old, old)` is empty; and the reconciliation loop never
emits an update entry with an empty diff. -/
theorem C2_diff_amended (old new : Rec)
    (hOld : (old.map (·.1)).Nodup) (hNew : (new.map (·.1)).Nodup) :
    (∀ k, k ∈ (diff_fields old new).map (·.1) ↔
      (k ∈ new.map (·.1) ∧ pyGet old k ≠ pyGet new k)) ∧
    diff_fields old old = [] ∧
    (∀ (e : List (String × String × Rec)) (d : List (String × Rec)) (p : String × Rec),
      p ∈ (reconcile e d).to_update → p.2 ≠ []) := by
  refine ⟨?_, ?_, ?_⟩
  · intro k
    constructor
    · intro hk
      obtain ⟨kv, hkv, hk1⟩ := List.mem_map.mp hk
      rw [diff_fields, List.mem_filter] at hkv
      obtain ⟨hmem, hne⟩ := hkv
      subst hk1
      refine ⟨List.mem_map.mpr ⟨kv, hmem, rfl⟩, ?_⟩
      have : pyGet new kv.1 = kv.2 := by
        unfold pyGet
        rw [lookupA_of_mem_nodup new hNew kv hmem]
        rfl
      rw [this]
      simpa using hne
    · rintro ⟨hk, hne⟩
      obtain ⟨kv, hkv, hk1⟩ := List.mem_map.mp hk
      subst hk1
      have hv : pyGet new kv.1 = kv.2 := by
        unfold pyGet
        rw [lookupA_of_mem_nodup new hNew kv hkv]
        rfl
      refine List.mem_map.mpr ⟨kv, ?_, rfl⟩
      rw [diff_fields, List.mem_filter]
      refine ⟨hkv, ?_⟩
      rw [hv] at hne
      simpa using hne
  · rw [diff_fields, List.filter_eq_nil_iff]
    intro kv hkv
    have : pyGet old kv.1 = kv.2 := by
      unfold pyGet
      rw [lookupA_of_mem_nodup old hOld kv hkv]
      rfl
    simp [this]
  · intro e d
    induction d with
    | nil => intro p hp; simp [reconcile] at hp
    | cons kv rest ih =>
      intro p hp
      obtain ⟨k, fields⟩ := kv
      rw [reconcile] at hp
      cases hl : lookupA e k with
      | some q =>
        obtain ⟨rid, oldf⟩ := q
        rw [hl] at hp
        simp only at hp
        by_cases hd : diff_fields oldf fields = []
        · rw [if_pos hd] at hp
          exact ih p hp
        · rw [if_neg hd] at hp
          rcases List.mem_cons.mp hp with hp | hp
          · subst hp; exact hd
          · exact ih p hp
      | none =>
        rw [hl] at hp
        simp only at hp
        exact ih p hp

/-- C2 witness for the amended theorem at concrete inputs: one changed
field, one unchanged field, one remote-only field. -/
theorem C2_diff_amended_witness :
    (([("Titel", Val.vstr "A"), ("Preis", Val.vnull)] : Rec).map (·.1)).Nodup ∧
    (([("Titel", Val.vstr "B")] : Rec).map (·.1)).Nodup ∧
    (("Titel" ∈ (diff_fields [("Titel", Val.vstr "A"), ("Preis", Val.vnull)]
        [("Titel", Val.vstr "B")]).map (·.1)) ↔
      ("Titel" ∈ ([("Titel", Val.vstr "B")] : Rec).map (·.1) ∧
        pyGet [("Titel", Val.vstr "A"), ("Preis", Val.vnull)] "Titel" ≠
          pyGet [("Titel", Val.vstr "B")] "Titel")) ∧
    diff_fields [("Titel", Val.vstr "A"), ("Preis", Val.vnull)]
      [("Titel", Val.vstr "A"), ("Preis", Val.vnull)] = [] :=
  ⟨by decide, by decide,
    (C2_diff_amended [("Titel", Val.vstr "A"), ("Preis", Val.vnull)]
      [("Titel", Val.vstr "B")] (by decide) (by decide)).1 "Titel",
    (C2_diff_amended [("Titel", Val.vstr "A"), ("Preis", Val.vnull)]
      [("Titel", Val.vstr "A"), ("Preis", Val.vnull)] (by decide) (by decide)).2.1⟩

/-! ## Reconciliation partition (C1) -/

theorem reconcile_to_create (ex : List (String × String × Rec)) (d : List (String × Rec)) :
    (reconcile ex d).to_create =
      (d.filter (fun kv => (lookupA ex kv.1).isNone)).map (·.2) := by
  induction d with
  | nil => rfl
  | cons kv rest ih =>
    obtain ⟨k, fields⟩ := kv
    rw [reconcile]
    cases hl : lookupA ex k with
    | some p =>
      obtain ⟨rid, old⟩ := p
      simp [hl, ih, List.filter_cons]
    | none => simp [hl, ih, List.filter_cons]

theorem reconcile_keep (ex : List (String × String × Rec)) (d : List (String × Rec)) :
    (reconcile ex d).keep =
      (d.filter (fun kv => (lookupA ex kv.1).isSome)).map (·.1) := by
  induction d with
  | nil => rfl
  | cons kv rest ih =>
    obtain ⟨k, fields⟩ := kv
    rw [reconcile]
    cases hl : lookupA ex k with
    | some p =>
      obtain ⟨rid, old⟩ := p
      simp [hl, ih, List.filter_cons]
    | none => simp [hl, ih, List.filter_cons]

theorem reconcile_length (ex : List (String × String × Rec)) (d : List (String × Rec)) :
    (reconcile ex d).to_create.length + (reconcile ex d).keep.length = d.length := by
  induction d with
  | nil => rfl
  | cons kv rest ih =>
    obtain ⟨k, fields⟩ := kv
    rw [reconcile]
    cases hl : lookupA ex k with
    | some p =>
      obtain ⟨rid, old⟩ := p
      simp only [hl, List.length_cons]
      omega
    | none =>
      simp only [hl, List.length_cons]
      omega

theorem filter_split_length {α : Type} (p : α → Bool) (l : List α) :
    (l.filter p).length + (l.filter (fun x => !(p x))).length = l.length := by
  induction l with
  | nil => rfl
  | cons x rest ih =>
    by_cases hx : p x
    · rw [List.filter_cons_of_pos hx, List.filter_cons_of_neg (by simp [hx])]
      simp only [List.length_cons]
      omega
    · rw [List.filter_cons_of_neg hx, List.filter_cons_of_pos (by simpa using hx)]
      simp only [List.length_cons]
      omega

theorem filter_contains_length {β : Type} (ex : List (String × β)) :
    ∀ (keep : List String), (ex.map (·.1)).Nodup → keep.Nodup →
    (∀ k ∈ keep, k ∈ ex.map (·.1)) →
    (ex.filter (fun e => decide (e.1 ∈ keep))).length = keep.length := by
  induction ex with
  | nil =>
    intro keep _ _ hsub
    have : keep = [] := by
      cases keep with
      | nil => rfl
      | cons k ks => exact absurd (hsub k (by simp)) (by simp)
    simp [this]
  | cons e rest ih =>
    intro keep hex hk hsub
    rw [List.map_cons, List.nodup_cons] at hex
    by_cases he : e.1 ∈ keep
    · rw [List.filter_cons_of_pos (by simpa using he)]
      have hfc : rest.filter (fun x => decide (x.1 ∈ keep)) =
          rest.filter (fun x => decide (x.1 ∈ keep.erase e.1)) := by
        apply List.filter_congr
        intro x hx
        have hne : x.1 ≠ e.1 := by
          intro hE
          exact hex.1 (hE ▸ List.mem_map.mpr ⟨x, hx, rfl⟩)
        simp only [decide_eq_decide]
        exact (List.mem_erase_of_ne hne).symm
      rw [hfc]
      simp only [List.length_cons]
      rw [ih (keep.erase e.1) hex.2 (hk.erase e.1) ?_]
      · rw [List.length_erase_of_mem he]
        have : 0 < keep.length := List.length_pos_of_mem he
        omega
      · intro k hkmem
        have hk1 : k ∈ keep := List.mem_of_mem_erase hkmem
        have hk2 : k ≠ e.1 := (hk.mem_erase_iff.mp hkmem).1
        rcases List.mem_cons.mp (hsub k hk1) with h | h
        · exact absurd h hk2
        · exact h
    · rw [List.filter_cons_of_neg (by simpa using he)]
      refine ih keep hex.2 hk ?_
      intro k hkmem
      rcases List.mem_cons.mp (hsub k hkmem) with h | h
      · have hke : k = e.1 := h
        subst hke
        exact absurd hkmem he
      · exact h

theorem createdKeys_lookup (ex : List (String × String × Rec)) (d : List (String × Rec))
    (k : String) (h : k ∈ createdKeys ex d) : lookupA ex k = none := by
  obtain ⟨kv, hkv, hk1⟩ := List.mem_map.mp h
  rw [List.mem_filter] at hkv
  subst hk1
  exact Option.isNone_iff_eq_none.mp hkv.2

theorem updatedKeys_lookup (ex : List (String × String × Rec)) (d : List (String × Rec))
    (k : String) (h : k ∈ updatedKeys ex d) : (lookupA ex k).isSome = true := by
  obtain ⟨kv, hkv, hk1⟩ := List.mem_map.mp h
  rw [List.mem_filter] at hkv
  subst hk1
  cases hl : lookupA ex kv.1 with
  | some p => rfl
  | none => rw [hl] at hkv; simp at hkv

theorem updatedKeys_mem_keep (ex : List (String × String × Rec)) (d : List (String × Rec))
    (k : String) (h : k ∈ updatedKeys ex d) : k ∈ (reconcile ex d).keep := by
  rw [reconcile_keep]
  obtain ⟨kv, hkv, hk1⟩ := List.mem_map.mp h
  rw [List.mem_filter] at hkv
  subst hk1
  refine List.mem_map.mpr ⟨kv, List.mem_filter.mpr ⟨hkv.1, ?_⟩, rfl⟩
  cases hl : lookupA ex kv.1 with
  | some p => rfl
  | none => rw [hl] at hkv; simp at hkv

theorem deletedKeys_not_keep (ex : List (String × String × Rec)) (keep : List String)
    (k : String) (h : k ∈ deletedKeys ex keep) : k ∉ keep := by
  obtain ⟨e, he, hk1⟩ := List.mem_map.mp h
  rw [List.mem_filter] at he
  subst hk1
  simpa using he.2

/-- C1.  Reconciliation partition invariant, for desired/existing maps
with distinct identity keys (as Python dicts guarantee). -/
theorem C1_reconciliation_partition (ex : List (String × String × Rec))
    (d : List (String × Rec))
    (hD : (d.map (·.1)).Nodup) (hE : (ex.map (·.1)).Nodup) :
    ReconClaim ex d := by
  refine ⟨reconcile_to_create ex d, reconcile_keep ex d, ?_, ?_, ?_, ?_, ?_,
    reconcile_length ex d, ?_⟩
  · rintro k ⟨hc, hu⟩
    have h1 := createdKeys_lookup ex d k hc
    have h2 := updatedKeys_lookup ex d k hu
    rw [h1] at h2
    simp at h2
  · rintro k ⟨hc, hdel⟩
    have h1 := createdKeys_lookup ex d k hc
    obtain ⟨e, he, hk1⟩ := List.mem_map.mp hdel
    rw [List.mem_filter] at he
    have : k ∈ ex.map (·.1) := List.mem_map.mpr ⟨e, he.1, hk1⟩
    exact (lookupA_eq_none ex k).mp h1 this
  · rintro k ⟨hu, hdel⟩
    exact deletedKeys_not_keep ex _ k hdel (updatedKeys_mem_keep ex d k hu)
  · intro k hk
    obtain ⟨kv, hkv, hk1⟩ := List.mem_map.mp hk
    subst hk1
    cases hl : lookupA ex kv.1 with
    | some p =>
      left
      constructor
      · rw [reconcile_keep]
        exact List.mem_map.mpr ⟨kv, List.mem_filter.mpr ⟨hkv, by rw [hl]; rfl⟩, rfl⟩
      · intro hc
        rw [createdKeys_lookup ex d kv.1 hc] at hl
        cases hl
    | none =>
      right
      constructor
      · rw [reconcile_keep]
        intro hmem
        obtain ⟨kv2, hkv2, hk2⟩ := List.mem_map.mp hmem
        rw [List.mem_filter] at hkv2
        have : lookupA ex kv2.1 = lookupA ex kv.1 := by rw [hk2]
        rw [hl] at this
        rw [this] at hkv2
        simp at hkv2
      · exact List.mem_map.mpr ⟨kv, List.mem_filter.mpr ⟨hkv, by rw [hl]; rfl⟩, rfl⟩
  · intro k hk
    obtain ⟨e, he, hk1⟩ := List.mem_map.mp hk
    by_cases hkeep : k ∈ (reconcile ex d).keep
    · left
      exact ⟨hkeep, fun hdel => deletedKeys_not_keep ex _ k hdel hkeep⟩
    · right
      refine ⟨hkeep, List.mem_map.mpr ⟨e, List.mem_filter.mpr ⟨he, ?_⟩, hk1⟩⟩
      subst hk1
      simpa using hkeep
  · have hkeepsub : ∀ k ∈ (reconcile ex d).keep, k ∈ ex.map (·.1) := by
      intro k hk
      rw [reconcile_keep] at hk
      obtain ⟨kv, hkv, hk1⟩ := List.mem_map.mp hk
      rw [List.mem_filter] at hkv
      subst hk1
      exact (lookupA_isSome ex kv.1).mp hkv.2
    have hkeepnd : (reconcile ex d).keep.Nodup := by
      rw [reconcile_keep]
      have hsub : List.Sublist ((d.filter (fun kv => (lookupA ex kv.1).isSome)).map (·.1))
          (d.map (·.1)) := (List.filter_sublist d).map (·.1)
      exact hD.sublist hsub
    have hlen : (to_delete_ids ex (reconcile ex d).keep).length =
        (ex.filter (fun e => !(decide (e.1 ∈ (reconcile ex d).keep)))).length := by
      rw [to_delete_ids, List.length_map]
    rw [hlen]
    have := filter_split_length (fun e => decide (e.1 ∈ (reconcile ex d).keep)) ex
    rw [filter_contains_length ex (reconcile ex d).keep hE hkeepnd hkeepsub] at this
    omega

/-- C1 witness: the spec's own end-to-end scenario — one matching key with
a changed field, one new key. -/
theorem C1_reconciliation_partition_witness :
    (([("obj:123", [("Titel", Val.vstr "B")]),
       ("obj:456", [("Titel", Val.vstr "C")])].map
        (fun kv => kv.1) : List String).Nodup) ∧
    (([("obj:123", ("recA", [("Titel", Val.vstr "A")]))].map
        (fun kv => kv.1) : List String).Nodup) ∧
    ReconClaim [("obj:123", ("recA", [("Titel", Val.vstr "A")]))]
      [("obj:123", [("Titel", Val.vstr "B")]), ("obj:456", [("Titel", Val.vstr "C")])] :=
  ⟨by decide, by decide,
    C1_reconciliation_partition _ _ (by decide) (by decide)⟩

/-! ## Price parsing and formatting (C5, C10) -/

theorem hexDigitChar_lt10 (d : Nat) (h : d < 10) :
    (hexDigitChar d).isDigit = true ∧ hexDigitChar d ≠ '.' ∧ hexDigitChar d ≠ ',' ∧
      digitVal (hexDigitChar d) = d := by
  interval_cases d <;> exact ⟨by decide, by decide, by decide, by decide⟩

theorem valDigits_foldl (l : List Char) : ∀ a : Nat,
    l.foldl (fun a c => a * 10 + digitVal c) a = a * 10 ^ l.length + valDigits l := by
  induction l with
  | nil => intro a; simp [valDigits]
  | cons c cs ih =>
    intro a
    rw [List.foldl_cons, ih]
    have h2 : valDigits (c :: cs) = digitVal c * 10 ^ cs.length + valDigits cs := by
      rw [valDigits, List.foldl_cons]
      have h3 := ih (0 * 10 + digitVal c)
      simpa [valDigits] using h3
    rw [h2, List.length_cons]
    ring

theorem natDigitsAux_val : ∀ (n : Nat) (acc : List Char),
    valDigits (natDigitsAux n acc) = n * 10 ^ acc.length + valDigits acc
  | 0, acc => by rw [natDigitsAux]; omega
  | m + 1, acc => by
    rw [natDigitsAux,
      natDigitsAux_val ((m + 1) / 10) (hexDigitChar ((m + 1) % 10) :: acc)]
    have hd : valDigits (hexDigitChar ((m + 1) % 10) :: acc) =
        ((m + 1) % 10) * 10 ^ acc.length + valDigits acc := by
      rw [valDigits, List.foldl_cons,
        (hexDigitChar_lt10 ((m + 1) % 10) (Nat.mod_lt _ (by omega))).2.2.2]
      have h3 := valDigits_foldl acc ((m + 1) % 10)
      simpa using h3
    rw [hd, List.length_cons]
    have hdm : (m + 1) / 10 * 10 + (m + 1) % 10 = m + 1 := by omega
    calc (m + 1) / 10 * 10 ^ (acc.length + 1) + ((m + 1) % 10 * 10 ^ acc.length + valDigits acc)
        = ((m + 1) / 10 * 10 + (m + 1) % 10) * 10 ^ acc.length + valDigits acc := by ring
      _ = (m + 1) * 10 ^ acc.length + valDigits acc := by rw [hdm]
decreasing_by exact Nat.div_lt_self (Nat.succ_pos m) (by omega)

theorem valDigits_natDigits (n : Nat) : valDigits (natDigits n) = n := by
  unfold natDigits
  by_cases h : n = 0
  · subst h; rw [if_pos rfl]; decide
  · rw [if_neg h, natDigitsAux_val n []]
    simp [valDigits]

theorem natDigitsAux_length : ∀ (n : Nat) (acc : List Char),
    acc.length ≤ (natDigitsAux n acc).length
  | 0, acc => by rw [natDigitsAux]
  | m + 1, acc => by
    rw [natDigitsAux]
    have h2 := natDigitsAux_length ((m + 1) / 10) (hexDigitChar ((m + 1) % 10) :: acc)
    rw [List.length_cons] at h2
    omega
decreasing_by exact Nat.div_lt_self (Nat.succ_pos m) (by omega)

theorem natDigits_ne_nil (n : Nat) : natDigits n ≠ [] := by
  unfold natDigits
  by_cases h : n = 0
  · rw [if_pos h]; simp
  · rw [if_neg h]
    intro hnil
    obtain ⟨m, rfl⟩ := Nat.exists_eq_succ_of_ne_zero h
    rw [natDigitsAux] at hnil
    have h2 := natDigitsAux_length ((m + 1) / 10) (hexDigitChar ((m + 1) % 10) :: [])
    rw [hnil] at h2
    simp at h2

theorem mem_natDigitsAux : ∀ (n : Nat) (acc : List Char) (c : Char),
    c ∈ natDigitsAux n acc → c ∈ acc ∨ ∃ d, d < 10 ∧ c = hexDigitChar d
  | 0, acc, c => by intro h; rw [natDigitsAux] at h; exact Or.inl h
  | m + 1, acc, c => by
    intro h
    rw [natDigitsAux] at h
    rcases mem_natDigitsAux ((m + 1) / 10) _ c h with h2 | h2
    · rcases List.mem_cons.mp h2 with h3 | h3
      · exact Or.inr ⟨(m + 1) % 10, Nat.mod_lt _ (by omega), h3⟩
      · exact Or.inl h3
    · exact Or.inr h2
decreasing_by exact Nat.div_lt_self (Nat.succ_pos m) (by omega)

theorem natDigits_chars (n : Nat) :
    ∀ c ∈ natDigits n, c.isDigit = true ∧ c ≠ '.' ∧ c ≠ ',' := by
  intro c hc
  unfold natDigits at hc
  by_cases h : n = 0
  · rw [if_pos h] at hc
    rcases List.mem_cons.mp hc with h3 | h3
    · subst h3; exact ⟨by decide, by decide, by decide⟩
    · simp at h3
  · rw [if_neg h] at hc
    rcases mem_natDigitsAux n [] c hc with h2 | h2
    · simp at h2
    · obtain ⟨d, hd, rfl⟩ := h2
      obtain ⟨hdd, hdot, hcom, _⟩ := hexDigitChar_lt10 d hd
      exact ⟨hdd, hdot, hcom⟩

theorem groupRevAux_filter_dot : ∀ (n : Nat) (r : List Char), r.length ≤ n →
    (groupRevAux r).filter (fun c => !(c == '.')) = r.filter (fun c => !(c == '.'))
  | 0, r, h => by rw [groupRevAux, if_pos (by omega)]
  | n + 1, r, h => by
    rw [groupRevAux]
    by_cases h3 : r.length ≤ 3
    · rw [if_pos h3]
    · rw [if_neg h3, List.filter_append, List.filter_cons_of_neg (by decide),
        groupRevAux_filter_dot n (r.drop 3)
          (by rw [List.length_drop]; omega)]
      conv_rhs => rw [← List.take_append_drop 3 r, List.filter_append]

theorem mem_groupRevAux : ∀ (n : Nat) (r : List Char) (c : Char), r.length ≤ n →
    c ∈ groupRevAux r → c = '.' ∨ c ∈ r
  | 0, r, c, h => by
    intro hc
    rw [groupRevAux, if_pos (by omega)] at hc
    exact Or.inr hc
  | n + 1, r, c, h => by
    intro hc
    rw [groupRevAux] at hc
    by_cases h3 : r.length ≤ 3
    · rw [if_pos h3] at hc; exact Or.inr hc
    · rw [if_neg h3] at hc
      rcases List.mem_append.mp hc with hc | hc
      · exact Or.inr (List.take_subset 3 r hc)
      · rcases List.mem_cons.mp hc with hc | hc
        · exact Or.inl hc
        · rcases mem_groupRevAux n (r.drop 3) c (by rw [List.length_drop]; omega) hc with
            hc | hc
          · exact Or.inl hc
          · exact Or.inr (List.drop_subset 3 r hc)

theorem cleanPrice_fmt (n : Nat) :
    cleanPriceChars ("€" ++ fmtThousands n) = natDigits n := by
  unfold cleanPriceChars fmtThousands
  have hdata : ("€" ++ String.mk ((groupRevAux (natDigits n).reverse).reverse)).data
      = '€' :: (groupRevAux (natDigits n).reverse).reverse := rfl
  rw [hdata]
  rw [List.filter_cons_of_neg (by decide)]
  have hmem : ∀ c ∈ (groupRevAux (natDigits n).reverse).reverse,
      c = '.' ∨ (c.isDigit = true ∧ c ≠ '.' ∧ c ≠ ',') := by
    intro c hc
    rw [List.mem_reverse] at hc
    rcases mem_groupRevAux (natDigits n).reverse.length _ c (Nat.le_refl _) hc with hc | hc
    · exact Or.inl hc
    · exact Or.inr (natDigits_chars n c (List.mem_reverse.mp hc))
  have hf1 : ((groupRevAux (natDigits n).reverse).reverse).filter
      (fun c => c.isDigit || c == '.' || c == ',') =
      (groupRevAux (natDigits n).reverse).reverse := by
    apply List.filter_eq_self.mpr
    intro c hc
    rcases hmem c hc with hc2 | hc2
    · subst hc2; decide
    · simp [hc2.1]
  rw [hf1, List.filter_reverse,
    groupRevAux_filter_dot (natDigits n).reverse.length _ (Nat.le_refl _),
    List.filter_reverse, List.reverse_reverse]
  have hf2 : (natDigits n).filter (fun c => !(c == '.')) = natDigits n := by
    apply List.filter_eq_self.mpr
    intro c hc
    have := (natDigits_chars n c hc).2.1
    simpa using this
  rw [hf2]
  have hmap : (natDigits n).map (fun c => if c = ',' then '.' else c) =
      (natDigits n).map id := by
    apply List.map_congr_left
    intro c hc
    rw [if_neg (natDigits_chars n c hc).2.2]
    rfl
  rw [hmap, List.map_id]

theorem parseDigitDot_natDigits (n : Nat) : parseDigitDot (natDigits n) = some (n : ℚ) := by
  unfold parseDigitDot
  have hguard : (((natDigits n).all (fun c => c.isDigit || c == '.') &&
      (natDigits n).any (·.isDigit)) &&
        decide ((natDigits n).count '.' ≤ 1)) = true := by
    simp only [Bool.and_eq_true, List.all_eq_true, List.any_eq_true, decide_eq_true_eq]
    refine ⟨⟨?_, ?_⟩, ?_⟩
    · intro c hc
      simp [(natDigits_chars n c hc).1]
    · obtain ⟨c, hc⟩ := List.exists_mem_of_ne_nil _ (natDigits_ne_nil n)
      exact ⟨c, hc, (natDigits_chars n c hc).1⟩
    · have : (natDigits n).count '.' = 0 := by
        apply List.count_eq_zero.mpr
        intro hmem
        exact (natDigits_chars n '.' hmem).2.1 rfl
      omega
  rw [if_pos hguard]
  have htake : (natDigits n).takeWhile (fun c => !(c == '.')) = natDigits n := by
    apply List.takeWhile_eq_self_iff.mpr
    intro c hc
    simpa using (natDigits_chars n c hc).2.1
  have hdrop : (natDigits n).dropWhile (fun c => !(c == '.')) = [] := by
    apply List.dropWhile_eq_nil_iff.mpr
    intro c hc
    simpa using (natDigits_chars n c hc).2.1
  rw [htake, hdrop]
  simp only [List.drop_nil]
  rw [valDigits_natDigits n]
  simp [valDigits]

theorem parse_price_fmt (n : Nat) :
    parse_price_to_number ("€" ++ fmtThousands n) = some (n : ℚ) := by
  have hne : "€" ++ fmtThousands n ≠ "" := by
    intro h
    have hdat : ("€" ++ fmtThousands n).data = [] := by rw [h]
    rw [show ("€" ++ fmtThousands n).data = "€".data ++ (fmtThousands n).data from rfl] at hdat
    obtain ⟨h1, _⟩ := List.append_eq_nil.mp hdat
    exact absurd h1 (by decide)
  unfold parse_price_to_number
  rw [if_neg hne, cleanPrice_fmt n]
  exact parseDigitDot_natDigits n

theorem parseDigitDot_nonneg (cs : List Char) (q : ℚ) (h : parseDigitDot cs = some q) :
    0 ≤ q := by
  unfold parseDigitDot at h
  split at h
  · injection h with h2
    subst h2
    positivity
  · cases h

/-- Evaluation lemma for `parseDigitDot` on a concrete numeral: the
kernel evaluates the character-level split, `norm_num` the exact
rational. -/
theorem parseDigitDot_eval (cs ip fpd : List Char)
    (hguard : ((cs.all (fun c => c.isDigit || c == '.') && cs.any (·.isDigit)) &&
      decide (cs.count '.' ≤ 1)) = true)
    (hsplit : cs.takeWhile (fun c => !(c == '.')) = ip)
    (hdrop : cs.dropWhile (fun c => !(c == '.')) = fpd) :
    parseDigitDot cs =
      some ((valDigits ip : ℚ) + (valDigits (fpd.drop 1) : ℚ) / 10 ^ (fpd.drop 1).length) := by
  unfold parseDigitDot
  rw [if_pos hguard]
  simp only []
  rw [hsplit, hdrop]

theorem parse_candidate_850 : parseDigitDot (candClean "850,50") = some (850.5 : ℚ) := by
  rw [show candClean "850,50" = ['8', '5', '0', '.', '5', '0'] from by decide,
    parseDigitDot_eval ['8', '5', '0', '.', '5', '0'] ['8', '5', '0'] ['.', '5', '0']
      (by decide) (by decide) (by decide)]
  norm_num [show valDigits ['8', '5', '0'] = 850 from by decide,
    show List.drop 1 ['.', '5', '0'] = ['5', '0'] from by decide,
    show valDigits ['5', '0'] = 50 from by decide]

theorem parse_candidate_50 : parseDigitDot (candClean "50") = some (50 : ℚ) := by
  rw [show candClean "50" = ['5', '0'] from by decide,
    parseDigitDot_eval ['5', '0'] ['5', '0'] [] (by decide) (by decide) (by decide)]
  norm_num [show valDigits ['5', '0'] = 50 from by decide,
    show valDigits ([] : List Char) = 0 from rfl]

theorem price_candidate_50 : price_candidate "50" = none := by
  simp only [price_candidate, parse_candidate_50]
  norm_num

theorem pyInt_850 : pyInt (850.5 : ℚ) = 850 := by
  unfold pyInt
  rw [if_neg (by norm_num)]
  rw [Int.floor_eq_iff]
  norm_num

theorem natDigits_850 : natDigits 850 = ['8', '5', '0'] := by
  simp [natDigits, natDigitsAux, hexDigitChar]

theorem fmtThousands_850 : fmtThousands 850 = "850" := by
  rw [fmtThousands, natDigits_850,
    show (['8', '5', '0'] : List Char).reverse = ['0', '5', '8'] from rfl]
  rw [groupRevAux, if_pos (by decide)]
  rfl

theorem price_candidate_850 : price_candidate "850,50" = some "€850" := by
  simp only [price_candidate, parse_candidate_850]
  rw [if_pos (by norm_num), pyInt_850]
  rw [show (850 : ℤ).toNat = 850 from rfl, fmtThousands_850]
  rfl

/-- C5.  Price parsing: `"1.250.000 €" ↦ 1250000`, `"850,50 €" ↦ 850.5`
(`.` thousands / `,` decimal), `None` on unparseable input without
raising, and a candidate whose value does not exceed 100 is rejected by
the extractor, which then yields `""`. -/
theorem C5_price_parsing : PriceClaim := by
  have ha : parse_price_to_number "1.250.000 €" = some (1250000 : ℚ) := by
    unfold parse_price_to_number
    rw [if_neg (by decide)]
    rw [show cleanPriceChars "1.250.000 €" = ['1', '2', '5', '0', '0', '0', '0'] from by decide,
      parseDigitDot_eval ['1', '2', '5', '0', '0', '0', '0'] ['1', '2', '5', '0', '0', '0', '0']
        [] (by decide) (by decide) (by decide)]
    norm_num [show valDigits ['1', '2', '5', '0', '0', '0', '0'] = 1250000 from by decide,
      show valDigits ([] : List Char) = 0 from rfl]
  have hb : parse_price_to_number "850,50 €" = some (850.5 : ℚ) := by
    unfold parse_price_to_number
    rw [if_neg (by decide)]
    rw [show cleanPriceChars "850,50 €" = ['8', '5', '0', '.', '5', '0'] from by decide,
      parseDigitDot_eval ['8', '5', '0', '.', '5', '0'] ['8', '5', '0'] ['.', '5', '0']
        (by decide) (by decide) (by decide)]
    norm_num [show valDigits ['8', '5', '0'] = 850 from by decide,
      show List.drop 1 ['.', '5', '0'] = ['5', '0'] from by decide,
      show valDigits ['5', '0'] = 50 from by decide]
  have hf : extract_price ["50"] = "" := by
    rw [extract_price, price_candidate_50]
    rfl
  refine ⟨ha, hb, ?_, ?_, ?_, hf⟩
  · intro s
    cases hp : parse_price_to_number s with
    | none => exact Or.inl rfl
    | some q =>
      refine Or.inr ⟨q, rfl, ?_⟩
      unfold parse_price_to_number at hp
      split at hp
      · cases hp
      · exact parseDigitDot_nonneg _ q hp
  · intro g q hp h100
    simp only [price_candidate, hp]
    rw [if_neg (not_lt.mpr h100)]
  · intro cands h
    induction cands with
    | nil => rfl
    | cons g rest ih =>
      rw [extract_price, h g (by simp)]
      exact ih (fun g2 hg2 => h g2 (by simp [hg2]))

/-- C5 witness: the below-threshold candidate `"50"` (value 50 ≤ 100) is
rejected and the extractor yields the empty string. -/
theorem C5_price_parsing_witness :
    price_candidate "50" = none ∧ extract_price ["50"] = "" :=
  ⟨C5_price_parsing.2.2.2.1 "50" 50 parse_candidate_50 (by norm_num),
    C5_price_parsing.2.2.2.2.2⟩

/-- C10.  Whenever the extractor accepts a candidate (value > 100), the
display string is `€` followed by the integer part alone, grouped with
`.` as thousands separator; the fraction is discarded (`"850,50"` gives
`"€850"`), and re-parsing the display string recovers exactly the
truncated integer value `⌊q⌋`, not the original decimal. -/
theorem C10_price_display (g : String) (q : ℚ)
    (hp : parseDigitDot (candClean g) = some q) (h100 : 100 < q) :
    price_candidate g = some ("€" ++ fmtThousands (pyInt q).toNat) ∧
    parse_price_to_number ("€" ++ fmtThousands (pyInt q).toNat) = some ((⌊q⌋ : ℤ) : ℚ) ∧
    pyInt q = ⌊q⌋ ∧
    price_candidate "850,50" = some "€850" := by
  have hq0 : (0 : ℚ) ≤ q := le_trans (by norm_num) (le_of_lt h100)
  have hpy : pyInt q = ⌊q⌋ := by
    unfold pyInt
    rw [if_neg (not_lt.mpr hq0)]
  refine ⟨?_, ?_, hpy, price_candidate_850⟩
  · simp only [price_candidate, hp]
    rw [if_pos h100]
  · rw [parse_price_fmt ((pyInt q).toNat)]
    congr 1
    rw [hpy]
    have hfl : (0 : ℤ) ≤ ⌊q⌋ := Int.floor_nonneg.mpr hq0
    conv_rhs => rw [← Int.toNat_of_nonneg hfl]
    push_cast
    rfl

/-- C10 witness at the claim's own example `"850,50"`. -/
theorem C10_price_display_witness :
    parseDigitDot (candClean "850,50") = some (850.5 : ℚ) ∧
    (100 : ℚ) < 850.5 ∧
    (price_candidate "850,50" = some ("€" ++ fmtThousands (pyInt (850.5 : ℚ)).toNat) ∧
      parse_price_to_number ("€" ++ fmtThousands (pyInt (850.5 : ℚ)).toNat) =
        some ((⌊(850.5 : ℚ)⌋ : ℤ) : ℚ) ∧
      pyInt (850.5 : ℚ) = ⌊(850.5 : ℚ)⌋ ∧
      price_candidate "850,50" = some "€850") :=
  ⟨parse_candidate_850, by norm_num,
    C10_price_display "850,50" 850.5 parse_candidate_850 (by norm_num)⟩

/-! ## Description assembly (C8) -/

theorem lineQualifies_spec (l : String) (h : lineQualifies l = true) :
    l ≠ "" ∧ 10 ≤ l.length ∧ ∀ stop ∈ STOP_STRINGS, containsSub l stop = false := by
  unfold lineQualifies at h
  simp only [Bool.and_eq_true, Bool.not_eq_true', beq_eq_false_iff_ne, ne_eq,
    decide_eq_false_iff_not, not_lt, List.any_eq_false] at h
  refine ⟨h.1.1, h.1.2, ?_⟩
  intro stop hstop
  have h3 := h.2 stop hstop
  simpa using h3

theorem cleanDescAux_mem (lines : List String) :
    ∀ (seen : List String) (l : String), l ∈ cleanDescAux seen lines →
      lineQualifies l = true ∧ l.toLower ∉ seen := by
  induction lines with
  | nil => intro seen l h; simp [cleanDescAux] at h
  | cons x rest ih =>
    intro seen l h
    simp only [cleanDescAux] at h
    by_cases hq : lineQualifies (normStr x)
    · rw [if_pos hq] at h
      by_cases hs : (normStr x).toLower ∈ seen
      · rw [if_pos hs] at h
        exact ih seen l h
      · rw [if_neg hs] at h
        rcases List.mem_cons.mp h with h | h
        · subst h; exact ⟨hq, hs⟩
        · obtain ⟨h1, h2⟩ := ih _ l h
          exact ⟨h1, fun hmem => h2 (List.mem_cons_of_mem _ hmem)⟩
    · rw [if_neg hq] at h
      exact ih seen l h

theorem cleanDescAux_nodup (lines : List String) :
    ∀ seen : List String, ((cleanDescAux seen lines).map String.toLower).Nodup := by
  induction lines with
  | nil => intro seen; simp [cleanDescAux]
  | cons x rest ih =>
    intro seen
    simp only [cleanDescAux]
    by_cases hq : lineQualifies (normStr x)
    · rw [if_pos hq]
      by_cases hs : (normStr x).toLower ∈ seen
      · rw [if_pos hs]; exact ih seen
      · rw [if_neg hs]
        rw [List.map_cons, List.nodup_cons]
        refine ⟨?_, ih _⟩
        intro hmem
        obtain ⟨l, hl, hleq⟩ := List.mem_map.mp hmem
        have := (cleanDescAux_mem rest _ l hl).2
        exact this (by rw [hleq]; exact List.mem_cons_self _ _)
    · rw [if_neg hq]; exact ih seen

theorem cleanDescAux_first (lines : List String) :
    ∀ (seen : List String) (l : String), l ∈ cleanDescAux seen lines →
      ∃ pre raw post, lines = pre ++ raw :: post ∧ normStr raw = l ∧
        ∀ p ∈ pre, ¬(lineQualifies (normStr p) = true ∧
          (normStr p).toLower = l.toLower) := by
  induction lines with
  | nil => intro seen l h; simp [cleanDescAux] at h
  | cons x rest ih =>
    intro seen l h
    simp only [cleanDescAux] at h
    by_cases hq : lineQualifies (normStr x)
    · rw [if_pos hq] at h
      by_cases hs : (normStr x).toLower ∈ seen
      · rw [if_pos hs] at h
        obtain ⟨pre, raw, post, heq, hn, hall⟩ := ih seen l h
        refine ⟨x :: pre, raw, post, by rw [heq]; rfl, hn, ?_⟩
        intro p hp
        rcases List.mem_cons.mp hp with hp | hp
        · subst hp
          rintro ⟨_, hlow⟩
          have hnot := (cleanDescAux_mem rest seen l h).2
          rw [← hlow] at hnot
          exact hnot hs
        · exact hall p hp
      · rw [if_neg hs] at h
        rcases List.mem_cons.mp h with h | h
        · subst h
          exact ⟨[], x, rest, rfl, rfl, by simp⟩
        · obtain ⟨pre, raw, post, heq, hn, hall⟩ := ih _ l h
          refine ⟨x :: pre, raw, post, by rw [heq]; rfl, hn, ?_⟩
          intro p hp
          rcases List.mem_cons.mp hp with hp | hp
          · subst hp
            rintro ⟨_, hlow⟩
            have hnot := (cleanDescAux_mem rest _ l h).2
            rw [← hlow] at hnot
            exact hnot (List.mem_cons_self _ _)
          · exact hall p hp
    · rw [if_neg hq] at h
      obtain ⟨pre, raw, post, heq, hn, hall⟩ := ih seen l h
      refine ⟨x :: pre, raw, post, by rw [heq]; rfl, hn, ?_⟩
      intro p hp
      rcases List.mem_cons.mp hp with hp | hp
      · subst hp
        rintro ⟨hqq, _⟩
        exact hq hqq
      · exact hall p hp

theorem collapseWsAux_rep_a : ∀ (n : Nat) (b : Bool),
    collapseWsAux b (List.replicate n 'a') = List.replicate n 'a' := by
  intro n
  induction n with
  | zero => intro b; rfl
  | succ m ih =>
    intro b
    rw [List.replicate_succ, collapseWsAux, if_neg (by decide)]
    rw [ih false]

theorem dropWhile_space_rep_a (n : Nat) :
    (List.replicate n 'a').dropWhile (fun c => decide (c = ' ')) = List.replicate n 'a' := by
  cases n with
  | zero => rfl
  | succ m => rw [List.replicate_succ, List.dropWhile_cons_of_neg (by decide)]

theorem normStr_rep_a (n : Nat) :
    normStr (String.mk (List.replicate n 'a')) = String.mk (List.replicate n 'a') := by
  unfold normStr
  rw [show (String.mk (List.replicate n 'a')).data = List.replicate n 'a' from rfl]
  rw [collapseWsAux_rep_a n false, dropWhile_space_rep_a n, List.reverse_replicate,
    dropWhile_space_rep_a n, List.reverse_replicate]

theorem isPrefixOf_replicate_a (c : Char) (rest : List Char) (hc : ¬(c = 'a')) :
    ∀ k, (c :: rest).isPrefixOf (List.replicate k 'a') = false := by
  intro k
  cases k with
  | zero => rfl
  | succ m =>
    rw [List.replicate_succ]
    simp [List.isPrefixOf, hc]

theorem tails_replicate_a (n : Nat) :
    ∀ t ∈ (List.replicate n 'a').tails, ∃ k, t = List.replicate k 'a' := by
  induction n with
  | zero =>
    intro t ht
    rw [show List.replicate 0 'a' = ([] : List Char) from rfl,
      show ([] : List Char).tails = [[]] from rfl, List.mem_singleton] at ht
    exact ⟨0, ht⟩
  | succ m ih =>
    intro t ht
    rw [List.replicate_succ, List.tails_cons, List.mem_cons] at ht
    rcases ht with ht | ht
    · exact ⟨m + 1, by rw [ht, List.replicate_succ]⟩
    · exact ih t ht

theorem stops_head_ne_a :
    ∀ stop ∈ STOP_STRINGS, stop.data ≠ [] ∧ stop.data.head? ≠ some 'a' := by
  decide

theorem containsSub_rep_a_stops (n : Nat) :
    ∀ stop ∈ STOP_STRINGS, containsSub (String.mk (List.replicate n 'a')) stop = false := by
  intro stop hstop
  obtain ⟨hne, hhead⟩ := stops_head_ne_a stop hstop
  unfold containsSub
  rw [show (String.mk (List.replicate n 'a')).data = List.replicate n 'a' from rfl]
  apply List.any_eq_false.mpr
  intro t ht
  obtain ⟨k, rfl⟩ := tails_replicate_a n t ht
  cases hdat : stop.data with
  | nil => exact absurd hdat hne
  | cons c rest =>
    have hc : ¬(c = 'a') := by
      intro hca
      rw [hdat, hca] at hhead
      exact hhead rfl
    rw [isPrefixOf_replicate_a c rest hc k]
    simp

theorem lineQualifies_rep_a (n : Nat) (hn : 10 ≤ n) :
    lineQualifies (String.mk (List.replicate n 'a')) = true := by
  unfold lineQualifies
  have h1 : (String.mk (List.replicate n 'a') == "") = false := by
    apply beq_eq_false_iff_ne.mpr
    intro h
    have := congrArg String.data h
    rw [show (String.mk (List.replicate n 'a')).data = List.replicate n 'a' from rfl] at this
    have := congrArg List.length this
    rw [List.length_replicate] at this
    simp at this
    omega
  have h2 : (String.mk (List.replicate n 'a')).length = n := by
    show (List.replicate n 'a').length = n
    exact List.length_replicate _ _
  have h3 : (STOP_STRINGS.any fun stop =>
      containsSub (String.mk (List.replicate n 'a')) stop) = false := by
    apply List.any_eq_false.mpr
    intro stop hstop
    rw [containsSub_rep_a_stops n stop hstop]
    simp
  rw [h1, h3, h2]
  simp
  omega

theorem extract_description_one_a (n : Nat) (hn : 10 ≤ n) :
    extract_description [] [String.mk (List.replicate n 'a')] =
      "=== BESCHREIBUNG ===\n\n" ++ String.mk (List.replicate n 'a') := by
  have hclean : clean_desc_lines [String.mk (List.replicate n 'a')] =
      [String.mk (List.replicate n 'a')] := by
    unfold clean_desc_lines
    simp only [cleanDescAux, normStr_rep_a n]
    rw [if_pos (lineQualifies_rep_a n hn), if_neg (by simp)]
  unfold extract_description
  simp only []
  rw [hclean]
  rw [show (List.filter (fun kv => !(kv.2 == "")) ([] : List (String × String))) = [] from rfl,
    show (List.map (fun kv : String × String => kv.1 ++ ": " ++ kv.2) ([] : List (String × String))) = [] from rfl,
    if_pos rfl,
    if_neg (show ¬([String.mk (List.replicate n 'a')] = ([] : List String)) by simp),
    show List.take 20 [String.mk (List.replicate n 'a')] =
      [String.mk (List.replicate n 'a')] from rfl,
    show joinSep "\n\n" [String.mk (List.replicate n 'a')] =
      String.mk (List.replicate n 'a') from rfl,
    List.nil_append]
  rfl

/-- C8 (amended).  Description cleaning deduplicates case-insensitively
keeping the first qualifying occurrence, keeps no line shorter than 10
characters and none containing a stop string; and the assembled text is
truncated to the first 20 cleaned lines — by line count, not to any
character length. -/
theorem C8_description_amended (lines : List String) :
    CleanDescClaim lines ∧
    (∀ (structured : List (String × String)) (ls ls' : List String),
      (clean_desc_lines ls).take 20 = (clean_desc_lines ls').take 20 →
      extract_description structured ls = extract_description structured ls') := by
  constructor
  · refine ⟨cleanDescAux_nodup lines [], ?_, ?_, ?_⟩
    · intro l hl
      exact (lineQualifies_spec l (cleanDescAux_mem lines [] l hl).1).2.1
    · intro l hl
      exact (lineQualifies_spec l (cleanDescAux_mem lines [] l hl).1).2.2
    · intro l hl
      exact cleanDescAux_first lines [] l hl
  · intro structured ls ls' h
    unfold extract_description
    simp only []
    have h20 : (0 : Nat) < 20 := by omega
    by_cases h0 : clean_desc_lines ls = []
    · have h0' : clean_desc_lines ls' = [] := by
        rw [h0] at h
        rcases (List.take_eq_nil_iff.mp h.symm) with h1 | h1
        · omega
        · exact h1
      rw [h0, h0']
    · have h0' : clean_desc_lines ls' ≠ [] := by
        intro h1
        rw [h1] at h
        rcases (List.take_eq_nil_iff.mp h) with h2 | h2
        · omega
        · exact h0 h2
      rw [if_neg h0, if_neg h0', h]

/-- C8 witness: a stop-string line, a duplicate differing only in case
and whitespace runs, and a too-short line; plus the 20-line-truncation
congruence at inputs differing only by a dropped line. -/
theorem C8_description_amended_witness :
    CleanDescClaim ["Cookie settings and related text", "a nice detached house near town",
      "A NICE DETACHED HOUSE NEAR TOWN", "short"] ∧
    extract_description [("Objekttyp", "Haus")] ["just one sufficiently long line"] =
      extract_description [("Objekttyp", "Haus")]
        ["just one sufficiently long line", "tiny"] :=
  ⟨(C8_description_amended ["Cookie settings and related text",
      "a nice detached house near town",
      "A NICE DETACHED HOUSE NEAR TOWN", "short"]).1,
    (C8_description_amended []).2 [("Objekttyp", "Haus")]
      ["just one sufficiently long line"]
      ["just one sufficiently long line", "tiny"] (by decide)⟩

/-- C8 counterexample.  There is no character-length bound on the
assembled description: a single qualifying line of any length passes
through uncut (only the number of cleaned lines is capped, at 20). -/
theorem C8_description_counterexample :
    ¬ ∃ L : ℕ, ∀ (structured : List (String × String)) (ls : List String),
      (extract_description structured ls).length ≤ L := by
  rintro ⟨L, hL⟩
  have h := hL [] [String.mk (List.replicate (L + 10) 'a')]
  rw [extract_description_one_a (L + 10) (by omega)] at h
  rw [String.length_append] at h
  have hlen : (String.mk (List.replicate (L + 10) 'a')).length = L + 10 := by
    show (List.replicate (L + 10) 'a').length = L + 10
    exact List.length_replicate _ _
  omega

/-! ## Duplicate-merge tie-break (C4) -/

theorem lookupA_cons_eq {β : Type} (e : String × β) (rest : List (String × β)) :
    lookupA (e :: rest) e.1 = some e.2 := by
  unfold lookupA
  rw [List.find?_cons_of_pos _ (by simp)]
  rfl

theorem lookupA_cons_ne {β : Type} (e : String × β) (rest : List (String × β)) (k : String)
    (h : ¬(e.1 = k)) : lookupA (e :: rest) k = lookupA rest k := by
  unfold lookupA
  rw [List.find?_cons_of_neg _ (by simpa using h)]

theorem lookupA_sanitize (allowed : List String) (m : Rec) (k : String) :
    lookupA (m.filter (fun kv => decide (kv.1 ∈ allowed))) k =
      if k ∈ allowed then lookupA m k else none := by
  induction m with
  | nil =>
    rw [List.filter_nil]
    split <;> rfl
  | cons e rest ih =>
    by_cases hpe : e.1 ∈ allowed
    · rw [List.filter_cons_of_pos (by simpa using hpe)]
      by_cases hek : e.1 = k
      · subst hek
        rw [if_pos hpe, lookupA_cons_eq, lookupA_cons_eq]
      · rw [lookupA_cons_ne e _ k hek, ih, lookupA_cons_ne e rest k hek]
    · rw [List.filter_cons_of_neg (by simpa using hpe), ih]
      by_cases hek : e.1 = k
      · subst hek
        rw [if_neg hpe, if_neg hpe]
      · rw [lookupA_cons_ne e rest k hek]

theorem descLen_of_lookup (r : Rec) (d : String)
    (h : lookupA r "Beschreibung" = some (Val.vstr d)) : descLen r = d.length := by
  unfold descLen
  rw [h]

theorem descLen_sanitize (allowed : List String) (r : Rec) (d : String)
    (h : lookupA r "Beschreibung" = some (Val.vstr d))
    (hB : allowed = [] ∨ "Beschreibung" ∈ allowed) :
    descLen (sanitize_record_for_airtable r allowed) = d.length := by
  unfold sanitize_record_for_airtable
  by_cases hA : allowed = []
  · rw [if_pos hA]
    exact descLen_of_lookup r d h
  · rcases hB with hB | hB
    · exact absurd hB hA
    · rw [if_neg hA]
      unfold descLen
      rw [lookupA_sanitize, if_pos hB, h]

theorem updateAssoc_keys (m : List (String × Rec)) (k : String) (v : Rec) :
    (updateAssoc m k v).map (·.1) = m.map (·.1) := by
  unfold updateAssoc
  rw [List.map_map]
  apply List.map_congr_left
  intro kv _
  by_cases h : kv.1 = k
  · simp [h]
  · simp [h]

theorem buildDesiredAux_nodup (allowed : List String) :
    ∀ (rows : List Rec) (desired : List (String × Rec)),
      (desired.map (·.1)).Nodup →
      ((buildDesiredAux allowed desired rows).map (·.1)).Nodup := by
  intro rows
  induction rows with
  | nil => intro desired h; rw [buildDesiredAux]; exact h
  | cons r rest ih =>
    intro desired h
    rw [buildDesiredAux]
    cases hl : lookupA desired (unique_key r) with
    | some cur =>
      simp only
      by_cases hd : descLen cur < descLen r
      · rw [if_pos hd]
        apply ih
        rw [updateAssoc_keys]
        exact h
      · rw [if_neg hd]
        exact ih desired h
    | none =>
      simp only
      apply ih
      rw [List.map_append]
      rw [List.nodup_append]
      refine ⟨h, List.nodup_singleton _, ?_⟩
      intro a ha
      simp only [List.map_cons, List.map_nil, List.mem_singleton]
      intro hak
      rw [hak] at ha
      exact (lookupA_eq_none desired (unique_key r)).mp hl ha

/-- C4 counterexample.  With a non-empty allow-list lacking
`"Beschreibung"`, the stored duplicate's description has been stripped by
sanitisation, so its length reads 0 and the *later*, strictly
shorter-description record wins the tie-break. -/
theorem C4_duplicate_merge_counterexample :
    unique_key [("Objektnummer", Val.vstr "1"), ("Titel", Val.vstr "A"),
        ("Beschreibung", Val.vstr "a longer descr")] =
      unique_key [("Objektnummer", Val.vstr "1"), ("Titel", Val.vstr "B"),
        ("Beschreibung", Val.vstr "short")] ∧
    descLen [("Objektnummer", Val.vstr "1"), ("Titel", Val.vstr "B"),
        ("Beschreibung", Val.vstr "short")] <
      descLen [("Objektnummer", Val.vstr "1"), ("Titel", Val.vstr "A"),
        ("Beschreibung", Val.vstr "a longer descr")] ∧
    buildDesired ["Titel"]
        [[("Objektnummer", Val.vstr "1"), ("Titel", Val.vstr "A"),
          ("Beschreibung", Val.vstr "a longer descr")],
         [("Objektnummer", Val.vstr "1"), ("Titel", Val.vstr "B"),
          ("Beschreibung", Val.vstr "short")]] =
      [("obj:1", [("Titel", Val.vstr "B")])] := by
  decide

/-- C4 (amended).  When the description field survives sanitisation
(empty allow-list, or `"Beschreibung"` allowed), two desired records
collapsing to one identity key retain the strictly-longer-description
record (the first on a tie) as the sanitised diff input; and duplicates
never produce two entries — the desired map's keys are always distinct.
Silently: the construction is total, with no error output. -/
theorem C4_duplicate_merge (allowed : List String) (r1 r2 : Rec) (d1 d2 : String)
    (hk : unique_key r1 = unique_key r2)
    (h1 : lookupA r1 "Beschreibung" = some (Val.vstr d1))
    (h2 : lookupA r2 "Beschreibung" = some (Val.vstr d2))
    (hB : allowed = [] ∨ "Beschreibung" ∈ allowed) :
    buildDesired allowed [r1, r2] =
      [(unique_key r1,
        sanitize_record_for_airtable (if d1.length < d2.length then r2 else r1) allowed)] ∧
    (∀ rows : List Rec, ((buildDesired allowed rows).map (·.1)).Nodup) := by
  constructor
  · have e1 : buildDesired allowed [r1, r2] =
        buildDesiredAux allowed
          [(unique_key r1, sanitize_record_for_airtable r1 allowed)] [r2] := rfl
    rw [e1, buildDesiredAux]
    have hlook : lookupA [(unique_key r1, sanitize_record_for_airtable r1 allowed)]
        (unique_key r2) = some (sanitize_record_for_airtable r1 allowed) := by
      rw [← hk]
      exact lookupA_cons_eq (unique_key r1, sanitize_record_for_airtable r1 allowed) []
    rw [hlook]
    simp only
    rw [descLen_sanitize allowed r1 d1 h1 hB, descLen_of_lookup r2 d2 h2]
    by_cases hlt : d1.length < d2.length
    · rw [if_pos hlt, if_pos hlt, buildDesiredAux, ← hk]
      simp [updateAssoc]
    · rw [if_neg hlt, if_neg hlt, buildDesiredAux]
  · intro rows
    exact buildDesiredAux_nodup allowed rows [] (by simp)

/-- C4 witness: with an empty allow-list, the later record with the
strictly longer description replaces the first. -/
theorem C4_duplicate_merge_witness :
    unique_key [("Objektnummer", Val.vstr "7"),
        ("Beschreibung", Val.vstr "short")] =
      unique_key [("Objektnummer", Val.vstr "7"),
        ("Beschreibung", Val.vstr "a longer description")] ∧
    buildDesired [] [[("Objektnummer", Val.vstr "7"), ("Beschreibung", Val.vstr "short")],
        [("Objektnummer", Val.vstr "7"), ("Beschreibung", Val.vstr "a longer description")]] =
      [("obj:7",
        sanitize_record_for_airtable
          (if ("short" : String).length < ("a longer description" : String).length then
            [("Objektnummer", Val.vstr "7"), ("Beschreibung", Val.vstr "a longer description")]
          else [("Objektnummer", Val.vstr "7"), ("Beschreibung", Val.vstr "short")]) [])] :=
  ⟨by decide,
    (C4_duplicate_merge [] [("Objektnummer", Val.vstr "7"), ("Beschreibung", Val.vstr "short")]
      [("Objektnummer", Val.vstr "7"), ("Beschreibung", Val.vstr "a longer description")]
      "short" "a longer description" (by decide) (by decide) (by decide)
      (Or.inl rfl)).1⟩

/-! ## Identity key (C3)

The three branches of `unique_key`, and injectivity of the hash branch's
content: the serialised, key-sorted field list determines the field map,
and the embedded hash is injective on strings, so records differing in
any field hash differently. -/

theorem char_toNat_lt (c : Char) : c.toNat < 1114112 := by
  have h : c.val.toNat < 0xd800 ∨ (0xdfff < c.val.toNat ∧ c.val.toNat < 0x110000) := c.valid
  show c.val.toNat < 1114112
  omega

theorem char_eq_of_toNat_eq (a b : Char) (h : a.toNat = b.toNat) : a = b := by
  cases a with
  | mk av ap =>
    cases b with
    | mk bv bp =>
      have h2 : av = bv := UInt32.ext h
      subst h2
      rfl

theorem string_eq_of_data_eq (s t : String) (h : s.data = t.data) : s = t := by
  cases s
  cases t
  exact congrArg String.mk h

theorem hexVal_hexDigitChar (d : Nat) (h : d < 16) : hexVal (hexDigitChar d) = d := by
  interval_cases d <;> decide

theorem decodeOne_escChar (c : Char) (r : List Char) :
    decodeOne (escChar c ++ r) = some (c.toNat, r) := by
  have hlt : c.toNat < 1114112 := char_toNat_lt c
  unfold escChar
  by_cases h1 : c = '"'
  · subst h1; rw [if_pos rfl]; rfl
  rw [if_neg h1]
  by_cases h2 : c = '\\'
  · subst h2; rw [if_pos rfl]; rfl
  rw [if_neg h2]
  by_cases h3 : c = '\n'
  · subst h3; rw [if_pos rfl]; rfl
  rw [if_neg h3]
  by_cases h4 : c = '\t'
  · subst h4; rw [if_pos rfl]; rfl
  rw [if_neg h4]
  by_cases h5 : c = '\r'
  · subst h5; rw [if_pos rfl]; rfl
  rw [if_neg h5]
  by_cases h6 : c.toNat = 8
  · rw [if_pos h6]
    show decodeOne ('\\' :: 'b' :: r) = some (c.toNat, r)
    rw [h6]
    rfl
  rw [if_neg h6]
  by_cases h7 : c.toNat = 12
  · rw [if_pos h7]
    show decodeOne ('\\' :: 'f' :: r) = some (c.toNat, r)
    rw [h7]
    rfl
  rw [if_neg h7]
  by_cases h8 : c.toNat < 32 ∨ 126 < c.toNat
  · rw [if_pos h8]
    have e1 := hexVal_hexDigitChar (c.toNat / 1048576 % 16) (Nat.mod_lt _ (by omega))
    have e2 := hexVal_hexDigitChar (c.toNat / 65536 % 16) (Nat.mod_lt _ (by omega))
    have e3 := hexVal_hexDigitChar (c.toNat / 4096 % 16) (Nat.mod_lt _ (by omega))
    have e4 := hexVal_hexDigitChar (c.toNat / 256 % 16) (Nat.mod_lt _ (by omega))
    have e5 := hexVal_hexDigitChar (c.toNat / 16 % 16) (Nat.mod_lt _ (by omega))
    have e6 := hexVal_hexDigitChar (c.toNat % 16) (Nat.mod_lt _ (by omega))
    show decodeOne ('\\' :: 'u' :: hexDigitChar (c.toNat / 1048576 % 16) ::
        hexDigitChar (c.toNat / 65536 % 16) :: hexDigitChar (c.toNat / 4096 % 16) ::
        hexDigitChar (c.toNat / 256 % 16) :: hexDigitChar (c.toNat / 16 % 16) ::
        hexDigitChar (c.toNat % 16) :: r) = some (c.toNat, r)
    have hred : decodeOne ('\\' :: 'u' :: hexDigitChar (c.toNat / 1048576 % 16) ::
        hexDigitChar (c.toNat / 65536 % 16) :: hexDigitChar (c.toNat / 4096 % 16) ::
        hexDigitChar (c.toNat / 256 % 16) :: hexDigitChar (c.toNat / 16 % 16) ::
        hexDigitChar (c.toNat % 16) :: r) =
        some (hexVal (hexDigitChar (c.toNat / 1048576 % 16)) * 1048576 +
          hexVal (hexDigitChar (c.toNat / 65536 % 16)) * 65536 +
          hexVal (hexDigitChar (c.toNat / 4096 % 16)) * 4096 +
          hexVal (hexDigitChar (c.toNat / 256 % 16)) * 256 +
          hexVal (hexDigitChar (c.toNat / 16 % 16)) * 16 +
          hexVal (hexDigitChar (c.toNat % 16)), r) := rfl
    rw [hred, e1, e2, e3, e4, e5, e6]
    have harith : c.toNat / 1048576 % 16 * 1048576 + c.toNat / 65536 % 16 * 65536 +
        c.toNat / 4096 % 16 * 4096 + c.toNat / 256 % 16 * 256 +
        c.toNat / 16 % 16 * 16 + c.toNat % 16 = c.toNat := by omega
    rw [harith]
  · rw [if_neg h8]
    show decodeOne (c :: r) = some (c.toNat, r)
    rw [decodeOne.eq_def]
    simp only
    rw [if_neg h2]

theorem escChar_split (c1 c2 : Char) (r1 r2 : List Char)
    (h : escChar c1 ++ r1 = escChar c2 ++ r2) : c1 = c2 ∧ r1 = r2 := by
  have h2 := congrArg decodeOne h
  rw [decodeOne_escChar, decodeOne_escChar] at h2
  injection h2 with h3
  injection h3 with h4 h5
  exact ⟨char_eq_of_toNat_eq c1 c2 h4, h5⟩

theorem escChar_head_ne_quot (c : Char) : ∃ h t, escChar c = h :: t ∧ h ≠ '"' := by
  unfold escChar
  split_ifs with h1 h2 h3 h4 h5 h6 h7 h8
  · exact ⟨'\\', _, rfl, by decide⟩
  · exact ⟨'\\', _, rfl, by decide⟩
  · exact ⟨'\\', _, rfl, by decide⟩
  · exact ⟨'\\', _, rfl, by decide⟩
  · exact ⟨'\\', _, rfl, by decide⟩
  · exact ⟨'\\', _, rfl, by decide⟩
  · exact ⟨'\\', _, rfl, by decide⟩
  · exact ⟨'\\', _, rfl, by decide⟩
  · exact ⟨c, [], rfl, h1⟩

theorem escList_split : ∀ (l1 l2 r1 r2 : List Char),
    escList l1 ++ '"' :: r1 = escList l2 ++ '"' :: r2 → l1 = l2 ∧ r1 = r2 := by
  intro l1
  induction l1 with
  | nil =>
    intro l2 r1 r2 h
    cases l2 with
    | nil =>
      simp only [escList, List.nil_append] at h
      injection h with _ h2
      exact ⟨rfl, h2⟩
    | cons c cs =>
      exfalso
      obtain ⟨hd, tl, he, hq⟩ := escChar_head_ne_quot c
      simp only [escList, List.nil_append] at h
      rw [he, List.cons_append, List.cons_append] at h
      injection h with h1 _
      exact hq h1.symm
  | cons c cs ih =>
    intro l2 r1 r2 h
    cases l2 with
    | nil =>
      exfalso
      obtain ⟨hd, tl, he, hq⟩ := escChar_head_ne_quot c
      simp only [escList, List.nil_append] at h
      rw [he, List.cons_append, List.cons_append] at h
      injection h with h1 _
      exact hq h1
    | cons d ds =>
      simp only [escList] at h
      rw [List.append_assoc, List.append_assoc] at h
      obtain ⟨hcd, hrest⟩ := escChar_split c d _ _ h
      obtain ⟨hcs, hr⟩ := ih ds r1 r2 hrest
      exact ⟨by rw [hcd, hcs], hr⟩

theorem serStr_split (s1 s2 : String) (r1 r2 : List Char)
    (h : serStr s1 ++ r1 = serStr s2 ++ r2) : s1 = s2 ∧ r1 = r2 := by
  unfold serStr at h
  rw [List.cons_append, List.cons_append, List.append_assoc, List.append_assoc,
    List.singleton_append, List.singleton_append] at h
  injection h with _ h2
  obtain ⟨hd, hr⟩ := escList_split _ _ _ _ h2
  exact ⟨string_eq_of_data_eq s1 s2 hd, hr⟩

theorem serVal_split (v1 v2 : Val) (r1 r2 : List Char)
    (h : serVal v1 ++ r1 = serVal v2 ++ r2) : v1 = v2 ∧ r1 = r2 := by
  cases v1 with
  | vnull =>
    cases v2 with
    | vnull =>
      simp only [serVal, List.cons_append, List.nil_append] at h
      injection h with _ h
      injection h with _ h
      injection h with _ h
      injection h with _ h
      exact ⟨rfl, h⟩
    | vstr s =>
      exfalso
      simp only [serVal, serStr, List.cons_append] at h
      injection h with h1 _
      exact absurd h1 (by decide)
  | vstr s1 =>
    cases v2 with
    | vnull =>
      exfalso
      simp only [serVal, serStr, List.cons_append] at h
      injection h with h1 _
      exact absurd h1 (by decide)
    | vstr s2 =>
      simp only [serVal] at h
      obtain ⟨hs, hr⟩ := serStr_split s1 s2 r1 r2 h
      exact ⟨by rw [hs], hr⟩

theorem serPair_split (k1 k2 : String) (v1 v2 : Val) (r1 r2 : List Char)
    (h : serPair (k1, v1) ++ r1 = serPair (k2, v2) ++ r2) :
    k1 = k2 ∧ v1 = v2 ∧ r1 = r2 := by
  unfold serPair at h
  simp only [List.append_assoc, List.cons_append] at h
  obtain ⟨hk, h2⟩ := serStr_split k1 k2 _ _ h
  injection h2 with _ h3
  injection h3 with _ h4
  obtain ⟨hv, hr⟩ := serVal_split v1 v2 r1 r2 h4
  exact ⟨hk, hv, hr⟩

theorem serTail_split : ∀ (xs ys : List (String × Val)) (r1 r2 : List Char),
    serTail xs ++ '}' :: r1 = serTail ys ++ '}' :: r2 → xs = ys ∧ r1 = r2 := by
  intro xs
  induction xs with
  | nil =>
    intro ys r1 r2 h
    cases ys with
    | nil =>
      simp only [serTail, List.nil_append] at h
      injection h with _ h2
      exact ⟨rfl, h2⟩
    | cons kv ys2 =>
      exfalso
      obtain ⟨k, v⟩ := kv
      simp only [serTail, List.nil_append, List.cons_append, List.append_assoc] at h
      injection h with h1 _
      exact absurd h1 (by decide)
  | cons kv xs ih =>
    intro ys r1 r2 h
    obtain ⟨k, v⟩ := kv
    cases ys with
    | nil =>
      exfalso
      simp only [serTail, List.nil_append, List.cons_append, List.append_assoc] at h
      injection h with h1 _
      exact absurd h1 (by decide)
    | cons kv2 ys2 =>
      obtain ⟨k2, v2⟩ := kv2
      simp only [serTail, List.cons_append, List.append_assoc] at h
      injection h with _ h2
      injection h2 with _ h3
      obtain ⟨hk, hv, hrest⟩ := serPair_split k k2 v v2 _ _ h3
      obtain ⟨hxs, hr⟩ := ih ys2 r1 r2 hrest
      exact ⟨by rw [hk, hv, hxs], hr⟩

theorem serItems_split (l1 l2 : List (String × Val)) (r1 r2 : List Char)
    (h : serItems l1 ++ '}' :: r1 = serItems l2 ++ '}' :: r2) : l1 = l2 ∧ r1 = r2 := by
  cases l1 with
  | nil =>
    cases l2 with
    | nil =>
      simp only [serItems, List.nil_append] at h
      injection h with _ h2
      exact ⟨rfl, h2⟩
    | cons kv ys =>
      exfalso
      obtain ⟨k, v⟩ := kv
      simp only [serItems, serPair, serStr, List.nil_append, List.cons_append,
        List.append_assoc] at h
      injection h with h1 _
      exact absurd h1 (by decide)
  | cons kv xs =>
    obtain ⟨k, v⟩ := kv
    cases l2 with
    | nil =>
      exfalso
      simp only [serItems, serPair, serStr, List.nil_append, List.cons_append,
        List.append_assoc] at h
      injection h with h1 _
      exact absurd h1 (by decide)
    | cons kv2 ys =>
      obtain ⟨k2, v2⟩ := kv2
      simp only [serItems, List.append_assoc] at h
      obtain ⟨hk, hv, hrest⟩ := serPair_split k k2 v v2 _ _ h
      obtain ⟨hxs, hr⟩ := serTail_split xs ys r1 r2 hrest
      exact ⟨by rw [hk, hv, hxs], hr⟩

theorem dumpsChars_inj (l1 l2 : List (String × Val)) (h : dumpsChars l1 = dumpsChars l2) :
    l1 = l2 := by
  unfold dumpsChars at h
  injection h with hh h2
  exact (serItems_split l1 l2 [] [] h2).1

theorem strEncode_inj : ∀ (l1 l2 : List Char), strEncode l1 = strEncode l2 → l1 = l2 := by
  intro l1
  induction l1 with
  | nil =>
    intro l2 h
    cases l2 with
    | nil => rfl
    | cons c cs =>
      exfalso
      rw [strEncode, strEncode] at h
      omega
  | cons c cs ih =>
    intro l2 h
    cases l2 with
    | nil =>
      exfalso
      rw [strEncode, strEncode] at h
      omega
    | cons d ds =>
      rw [strEncode, strEncode] at h
      have hc := char_toNat_lt c
      have hd := char_toNat_lt d
      have h1 : c.toNat = d.toNat := by omega
      have h2 : strEncode cs = strEncode ds := by omega
      rw [char_eq_of_toNat_eq c d h1, ih ds h2]

theorem pyHash_inj (s t : String) (h : s ≠ t) : pyHash s ≠ pyHash t := by
  intro he
  unfold pyHash at he
  injection he with h2
  exact h (string_eq_of_data_eq s t (strEncode_inj s.data t.data h2))

theorem json_dumps_sorted_inj (f g : Rec)
    (hf : List.Sorted (· < ·) (f.map (·.1))) (hg : List.Sorted (· < ·) (g.map (·.1)))
    (hne : f ≠ g) : json_dumps_sorted f ≠ json_dumps_sorted g := by
  have hsf : List.insertionSort (fun a b : String × Val => a.1 ≤ b.1) f = f := by
    apply List.Sorted.insertionSort_eq
    rw [List.Sorted, ← List.pairwise_map (f := fun kv : String × Val => kv.1)]
    exact hf.imp le_of_lt
  have hsg : List.insertionSort (fun a b : String × Val => a.1 ≤ b.1) g = g := by
    apply List.Sorted.insertionSort_eq
    rw [List.Sorted, ← List.pairwise_map (f := fun kv : String × Val => kv.1)]
    exact hg.imp le_of_lt
  intro he
  unfold json_dumps_sorted at he
  rw [hsf, hsg] at he
  injection he with h2
  exact hne (dumpsChars_inj f g h2)

/-- C3.  The identity key: `obj:<nr>` whenever the stripped object number
is non-empty, regardless of every other field (records agreeing on the
object number get one key); the `url:` fallback with the object number
absent; with both absent, `hash:` of the embedded hash of the key-sorted
JSON serialisation of *all* fields — which changes whenever any field of
a canonical (key-sorted) record changes; and the key is a pure function
of the record. -/
theorem C3_identity_key :
    (∀ f : Rec, objPart f ≠ "" → unique_key f = "obj:" ++ objPart f) ∧
    (∀ f g : Rec, objPart f = objPart g → objPart f ≠ "" → unique_key f = unique_key g) ∧
    (∀ f : Rec, objPart f = "" → urlPart f ≠ "" → unique_key f = "url:" ++ urlPart f) ∧
    (∀ f : Rec, objPart f = "" → urlPart f = "" →
      unique_key f = "hash:" ++ toString (pyHash (json_dumps_sorted f))) ∧
    (∀ f g : Rec, List.Sorted (· < ·) (f.map (·.1)) → List.Sorted (· < ·) (g.map (·.1)) →
      f ≠ g → pyHash (json_dumps_sorted f) ≠ pyHash (json_dumps_sorted g)) ∧
    (∀ f g : Rec, f = g → unique_key f = unique_key g) := by
  have hkey : ∀ f : Rec, unique_key f =
      (if objPart f ≠ "" then "obj:" ++ objPart f
       else if urlPart f ≠ "" then "url:" ++ urlPart f
       else "hash:" ++ toString (pyHash (json_dumps_sorted f))) := fun f => rfl
  have hobj : ∀ f : Rec, objPart f ≠ "" → unique_key f = "obj:" ++ objPart f := by
    intro f h
    rw [hkey f, if_pos h]
  refine ⟨hobj, ?_, ?_, ?_, ?_, ?_⟩
  · intro f g hfg h
    rw [hobj f h, hobj g (by rw [← hfg]; exact h), hfg]
  · intro f h1 h2
    rw [hkey f, if_neg (by simpa using h1), if_pos h2]
  · intro f h1 h2
    rw [hkey f, if_neg (by simpa using h1), if_neg (by simpa using h2)]
  · intro f g hf hg hne
    exact pyHash_inj _ _ (json_dumps_sorted_inj f g hf hg hne)
  · intro f g h
    rw [h]

/-- C3 witness: an `obj:` record, two canonical records differing in one
field value, and the other branches at concrete inputs. -/
theorem C3_identity_key_witness :
    (objPart [("Objektnummer", Val.vstr " 123 "), ("Titel", Val.vstr "x")] ≠ "" ∧
      unique_key [("Objektnummer", Val.vstr " 123 "), ("Titel", Val.vstr "x")] =
        "obj:" ++ objPart [("Objektnummer", Val.vstr " 123 "), ("Titel", Val.vstr "x")]) ∧
    (objPart [("Webseite", Val.vstr "https://x.de/1")] = "" ∧
      urlPart [("Webseite", Val.vstr "https://x.de/1")] ≠ "" ∧
      unique_key [("Webseite", Val.vstr "https://x.de/1")] =
        "url:" ++ urlPart [("Webseite", Val.vstr "https://x.de/1")]) ∧
    (List.Sorted (· < ·) (([("Titel", Val.vstr "x")] : Rec).map (·.1)) ∧
      List.Sorted (· < ·) (([("Titel", Val.vstr "y")] : Rec).map (·.1)) ∧
      ([("Titel", Val.vstr "x")] : Rec) ≠ [("Titel", Val.vstr "y")] ∧
      pyHash (json_dumps_sorted [("Titel", Val.vstr "x")]) ≠
        pyHash (json_dumps_sorted [("Titel", Val.vstr "y")])) :=
  ⟨⟨by decide, C3_identity_key.1 _ (by decide)⟩,
    ⟨by decide, by decide, C3_identity_key.2.2.1 _ (by decide) (by decide)⟩,
    ⟨by decide, by decide, by decide,
      C3_identity_key.2.2.2.2.1 _ _ (by decide) (by decide) (by decide)⟩⟩

end Reinicke
